import Mathlib

/-!
# PrintTracker: learn, print and identify

A shallow embedding of `printrack.cpp`.

Conventions of the embedding.
* A byte (`char`) is a natural number; the blank `' '` is `32`, `'<'` is `60`,
  `'>'` is `62`, `'|'` is `124`, `'d'` is `100`, `'i'` is `105`.
* A stdio stream opened with `fopen` is a `File`: its bytes, the read/write
  position and the end-of-file indicator.  `fread(&b, 1, 1, f)` at the end of the
  data sets the indicator and leaves `b` as it was (the stale value stays in the
  variable); the source never looks at the value `fread` returns.
* File sizes, positions, `ftell` results and the lengths of the chains of
  `generatePrint` are unbounded naturals (`long`, `unsigned long long` and
  `size_t` in the source; the cast `(unsigned)charChainPrint.size()` is taken as
  exact, which it is for learn files below 2^32 bytes).  The `unsigned int` and
  `int` counters of `identify` and the `float` of the scorer keep their width.
* Local variables that the source leaves uninitialised (`byte`, `byte2`,
  `headData`) are given as arguments.
-/

namespace PrintTracker

/-! ## Streams -/

/-- A stdio stream: the bytes of the file, the position and the end-of-file flag. -/
structure File where
  data : List Nat
  pos : Nat
  eof : Bool
deriving DecidableEq

/-- Result of `fopen` followed by `rewind`: position 0, flag cleared. -/
def File.opened (bytes : List Nat) : File :=
  { data := bytes, pos := 0, eof := false }

/-- Model of `fread(&byte, 1, 1, f)`: returns the new value of the variable and
the stream.  At the end of the data the variable keeps its old value. -/
def File.fread (f : File) (byte : Nat) : Nat × File :=
  match f.data[f.pos]? with
  | some b => (b, { f with pos := f.pos + 1 })
  | none => (byte, { f with eof := true })

/-- Store one byte at position `p` of a byte sequence (a write at the end of the
data extends it). -/
def writeAt (bytes : List Nat) (p : Nat) (c : Nat) : List Nat :=
  if p < bytes.length then bytes.set p c
  else bytes ++ List.replicate (p - bytes.length) 0 ++ [c]

/-- The body of `if (byte != byte2)` in `learn` (lines 254-259): step back one
byte (`fseek(f, -1L, SEEK_CUR)`, or `rewind` at position 0), write a blank with
`fprintf(f, " ")`, then `fseek(f, 0L, SEEK_CUR)`.  `fseek` clears the flag. -/
def File.blank (f : File) : File :=
  let p := if f.pos ≠ 0 then f.pos - 1 else 0
  { data := writeAt f.data p 32, pos := p + 1, eof := false }

/-! ## learn (lines 196-288) -/

/-- First-time copy, STRAIGHT (lines 220-226): every byte that `fread` delivers
is written to `outputDer`; the loop ends at the first failed read. -/
def seedDerLoop : List Nat → List Nat → List Nat
  | [], out => out
  | b :: rest, out => seedDerLoop rest (out ++ [b])

/-- First-time copy, INVERTED (lines 228-234):
`while (index <= endIndex)` reads the byte at `endIndex - index` and appends
it to `outputInv`.  `none` when the fuel runs out. -/
def seedInvLoop (input : List Nat) (endIndex : Nat) :
    Nat → Nat → Nat → List Nat → Option (List Nat)
  | 0, _, _, _ => none
  | fuel + 1, index, byte, out =>
    if index ≤ endIndex then
      let byte1 := (File.fread { data := input, pos := endIndex - index, eof := false } byte).1
      seedInvLoop input endIndex fuel (index + 1) byte1 (out ++ [byte1])
    else some out

/-- One pass of the body of the STRAIGHT update loop after `byte` was read from
the sample (lines 249-260): read `byte2` from the learn file, skip a blank,
blank the cell on a difference.  Returns the new `byte2` and the stream. -/
def learnStep (byte byte2 : Nat) (out : File) : Nat × File :=
  let r := out.fread byte2
  if r.1 = 32 then (r.1, r.2)
  else if byte ≠ r.1 then (r.1, r.2.blank)
  else (r.1, r.2)

/-- The STRAIGHT update loop (lines 246-261),
`while (!feof(outputDer) && !feof(input))`, by recursion on the unread bytes of
the sample.  With the sample exhausted the read fails, `byte` keeps its value,
the body still runs once and the loop ends on `feof(input)`.
Returns the final `byte`, `byte2` and learn file. -/
def learnDerLoop : List Nat → Nat → Nat → File → Nat × Nat × File
  | [], byte, byte2, out =>
    if out.eof then (byte, byte2, out)
    else
      let r := learnStep byte byte2 out
      (byte, r.1, r.2)
  | b :: rest, byte, byte2, out =>
    if out.eof then (byte, byte2, out)
    else
      let r := learnStep b byte2 out
      learnDerLoop rest b r.1 r.2

/-- The INVERTED update loop (lines 265-282),
`while (!feof(outputInv) && index <= endIndex)`.  The sample byte comes from
`fseek(input, endIndex - index, SEEK_SET)` and `fread`; a blank cell takes the
`continue`, which skips `index++`.  `none` when the fuel runs out. -/
def learnInvLoop (input : List Nat) (endIndex : Nat) :
    Nat → Nat → Nat → Nat → File → Option (Nat × Nat × File)
  | 0, _, _, _, _ => none
  | fuel + 1, index, byte, byte2, out =>
    if out.eof = false ∧ index ≤ endIndex then
      let byte1 := (File.fread { data := input, pos := endIndex - index, eof := false } byte).1
      let r := out.fread byte2
      if r.1 = 32 then learnInvLoop input endIndex fuel index byte1 r.1 r.2
      else if byte1 ≠ r.1 then learnInvLoop input endIndex fuel (index + 1) byte1 r.1 r.2.blank
      else learnInvLoop input endIndex fuel (index + 1) byte1 r.1 r.2
    else some (byte, byte2, out)

/-- Iterations that the INVERTED update loop can need at most. -/
def learnInvFuel (buffer input : List Nat) : Nat :=
  2 * buffer.length + 2 * input.length + 4

/-- The STRAIGHT update of an existing learn file `buffer` with a sample. -/
def learnDer (buffer input : List Nat) (byte byte2 : Nat) : List Nat :=
  (learnDerLoop input byte byte2 (File.opened buffer)).2.2.data

/-- The INVERTED update of an existing learn file `buffer` with a sample. -/
def learnInv (buffer input : List Nat) (byte byte2 : Nat) : Option (List Nat) :=
  (learnInvLoop input input.length (learnInvFuel buffer input) 1 byte byte2
    (File.opened buffer)).map (fun r => r.2.2.data)

/-- Model of `learn`: `learn1` and `learn2` are the contents of
`learns/<ext>.learn1` and `learns/<ext>.learn2` (`none` when `checkFile` gives
-1), `input` the bytes of the sample; `byte` and `byte2` are the uninitialised
locals.  Returns the two learn files after the call. -/
def learn (learn1 learn2 : Option (List Nat)) (input : List Nat) (byte byte2 : Nat) :
    Option (List Nat × List Nat) :=
  match learn1, learn2 with
  | some der, some inv =>
    let s := learnDerLoop input byte byte2 (File.opened der)
    match learnInvLoop input input.length (learnInvFuel inv input) 1 s.1 s.2.1
        (File.opened inv) with
    | some t => some (s.2.2.data, t.2.2.data)
    | none => none
  | _, _ =>
    match seedInvLoop input input.length (input.length + 1) 1 byte [] with
    | some inv => some (seedDerLoop input [], inv)
    | none => none

/-! ## generatePrint (lines 290-370) -/

/-- One string of the print file: the fields of its mini-header
`<Position|Length|Order>` and the bytes written after it. -/
structure PrintRec where
  pos : Nat
  tam : Nat
  ori : Nat
  lit : List Nat
deriving DecidableEq

/-- How a loop of `generatePrint` ends: it finishes with a value, or it is caught
in the inner `while (byte != ' ')`, whose `fread` fails from the end of the file
on and leaves a `byte` that is not blank (the vector grows without end), or the
fuel of the model ran out. -/
inductive Outcome (α : Type) where
  | done : α → Outcome α
  | hang : Outcome α
  | noFuel : Outcome α
deriving DecidableEq

/-- The strings written so far, followed by what the rest of the loop writes. -/
def Outcome.after (recs : List PrintRec) : Outcome (List PrintRec) → Outcome (List PrintRec)
  | Outcome.done more => Outcome.done (recs ++ more)
  | Outcome.hang => Outcome.hang
  | Outcome.noFuel => Outcome.noFuel

/-- The inner loop `while (byte != ' ') { charChainPrint.push_back(byte);
fread(&byte, 1, 1, f); }` (lines 320-324 and 347-351), started with the current
`byte` and the unread bytes.  Gives the chain and the bytes left unread once a
blank was read; `none` when the end of the file is reached with a `byte` that is
not blank, from where the loop cannot end. -/
def readChain : Nat → List Nat → Option (List Nat × List Nat)
  | byte, [] => if byte ≠ 32 then none else some ([], [])
  | byte, b :: rest =>
    if byte ≠ 32 then
      match readChain b rest with
      | some r => some (byte :: r.1, r.2)
      | none => none
    else some ([], b :: rest)

/-- The loop `while (!feof(f))` of lines 315-337 and 342-365; the two copies
differ only in what they print for a chain, which is the argument `emit`
(called with `charChainIndex` and the chain).  `byte` is the byte read last,
`rest` the unread bytes, `tell` the value of `ftell`. -/
def scanLoop (emit : Nat → List Nat → PrintRec) :
    Nat → Nat → List Nat → Nat → Outcome (List PrintRec)
  | 0, _, _, _ => Outcome.noFuel
  | fuel + 1, byte, rest, tell =>
    if byte ≠ 32 then
      let charChainIndex := tell - 1
      match readChain byte rest with
      | none => Outcome.hang
      | some r =>
        Outcome.after (if r.1.length > 0 then [emit charChainIndex r.1] else [])
          (scanLoop emit fuel 32 r.2 (tell + r.1.length))
    else
      match rest with
      | [] => Outcome.done []
      | b :: rest1 => scanLoop emit fuel b rest1 (tell + 1)

/-- A learn file read from its first `fread` to the end of the loop. -/
def scanFile (emit : Nat → List Nat → PrintRec) (bytes : List Nat) :
    Outcome (List PrintRec) :=
  match bytes with
  | [] => Outcome.done []
  | b :: rest => scanLoop emit (rest.length + 1) b rest 1

/-- STRAIGHT chain (lines 327-331): header `<charChainIndex|size|d>` and the
chain from index 0 up. -/
def emitDer (charChainIndex : Nat) (chain : List Nat) : PrintRec :=
  { pos := charChainIndex, tam := chain.length, ori := 100, lit := chain }

/-- The loop `for (i = size - 1; i > 0; i--) fprintf(printFile, "%c", chain[i])`
of lines 355-358, started at `i`. -/
def invLiteralLoop (chain : List Nat) : Nat → List Nat
  | 0 => []
  | i + 1 => chain.getD (i + 1) 0 :: invLiteralLoop chain i

/-- INVERTED chain (lines 354-359): header `<charChainIndex + size|size|i>`, the
chain from its last index down to 1, then `chain[0]`. -/
def emitInv (charChainIndex : Nat) (chain : List Nat) : PrintRec :=
  { pos := charChainIndex + chain.length, tam := chain.length, ori := 105,
    lit := invLiteralLoop chain (chain.length - 1) ++ [chain.getD 0 0] }

/-- Decimal digits of `n`, most significant first, pushed in front of `acc`. -/
def digitsLoop : Nat → Nat → List Nat → List Nat
  | 0, _, acc => acc
  | fuel + 1, n, acc =>
    if n / 10 = 0 then (48 + n % 10) :: acc
    else digitsLoop fuel (n / 10) ((48 + n % 10) :: acc)

/-- What `%llu` and `%u` print. -/
def decimal (n : Nat) : List Nat := digitsLoop (n + 1) n []

/-- The bytes that `fprintf` puts into the print file for one string. -/
def PrintRec.bytes (r : PrintRec) : List Nat :=
  [60] ++ decimal r.pos ++ [124] ++ decimal r.tam ++ [124, r.ori, 62] ++ r.lit

/-- The STRAIGHT strings of a learn file. -/
def scanDer (learn1 : List Nat) : Outcome (List PrintRec) := scanFile emitDer learn1

/-- The INVERTED strings of a learn file. -/
def scanInv (learn2 : List Nat) : Outcome (List PrintRec) := scanFile emitInv learn2

/-- Model of `generatePrint` for an extension whose two learn files exist: the
contents of the print file, STRAIGHT strings first. -/
def generatePrint (learn1 learn2 : List Nat) : Outcome (List Nat) :=
  match scanDer learn1 with
  | Outcome.done ds =>
    match scanInv learn2 with
    | Outcome.done is => Outcome.done ((ds ++ is).flatMap PrintRec.bytes)
    | Outcome.hang => Outcome.hang
    | Outcome.noFuel => Outcome.noFuel
  | Outcome.hang => Outcome.hang
  | Outcome.noFuel => Outcome.noFuel

/-! ## identify (lines 372-541) -/

/-- The struct `guess` (the fields `extensionInHeader` and `extensionDistance`
are never read).  The counters are `unsigned int`. -/
structure guess where
  ext : String
  totalPrints : Nat
  detectedPrints : Nat
  firstHeaderStrike : Bool
deriving DecidableEq

/-- The struct `header`: `pos` and `tam` are `int`, `ori` is a `char`. -/
structure header where
  pos : Int
  tam : Int
  ori : Nat
deriving DecidableEq

/-- The struct `ans`.  `pcent` is a `float` whose value is always a natural
number here; `weight` and `tp` are `int`. -/
structure ans where
  ext : String
  weight : Int
  pcent : Nat
  tp : Int
  gotHeader : Bool
deriving DecidableEq

/-- A stream that is only read front to back: the unread bytes and the
end-of-file flag. -/
structure Reader where
  rest : List Nat
  eof : Bool
deriving DecidableEq

/-- Model of `fread(&byte, 1, 1, f)` on a `Reader`. -/
def Reader.fread (f : Reader) (byte : Nat) : Nat × Reader :=
  match f.rest with
  | b :: rest => (b, { f with rest := rest })
  | [] => (byte, { f with eof := true })

/-- Model of `parseUntil` (lines 177-188) on the unread bytes: the string read
and the stream after the call.  The bytes before `endToken` are collected, the
token is consumed; a failed read ends the loop with the flag set. -/
def parseUntil (endToken : Nat) : List Nat → List Nat × Reader
  | [] => ([], { rest := [], eof := true })
  | b :: rest =>
    if b ≠ endToken then
      let r := parseUntil endToken rest
      (b :: r.1, r.2)
    else ([], { rest := rest, eof := false })

/-- The characters for which `isspace` holds in the C locale. -/
def isspace (c : Nat) : Bool := c = 32 || (9 ≤ c && c ≤ 13)

/-- The characters for which `isdigit` holds. -/
def isdigit (c : Nat) : Bool := 48 ≤ c && c ≤ 57

/-- Value of the longest prefix of decimal digits, after `acc`. -/
def atoiDigits : List Nat → Int → Int
  | [], acc => acc
  | c :: cs, acc => if isdigit c then atoiDigits cs (acc * 10 + ((c : Int) - 48)) else acc

/-- Model of `atoi` on the bytes of a C string: white space, an optional sign,
then digits; anything else ends the number.  The result is not reduced to the
range of `int` (the C function is undefined outside it). -/
def atoi (s : List Nat) : Int :=
  match s.dropWhile isspace with
  | 45 :: cs => - atoiDigits cs 0
  | 43 :: cs => atoiDigits cs 0
  | cs => atoiDigits cs 0

/-- Conversion of an `int` to `unsigned int`, as the comparisons of the
`unsigned int` counters with `headData.tam` do. -/
def toUnsigned (z : Int) : Nat := (z % 4294967296).toNat

/-- The variables of `identify` that live across the loop over one print file. -/
structure IdState where
  printFile : Reader
  -- the position of `fileToIdentify`
  filePos : Nat
  byte : Nat
  byte2 : Nat
  headData : header
  isOnField : Bool
  fieldCharCounter : Nat
  auxCounter : Nat
  totalPrints : Nat
  detectedPrints : Nat
  firstHeaderStrike : Bool
deriving DecidableEq

/-- Lines 432-446: the mini-header.  `false` in the first component is the
`break` of line 440. -/
def parseHeader (s : IdState) : Bool × IdState :=
  if s.byte = 60 ∧ s.isOnField = false ∧ s.printFile.eof = false then
    let p1 := parseUntil 124 s.printFile.rest
    let p2 := parseUntil 124 p1.2.rest
    let r1 := p2.2.fread s.byte
    let r2 := r1.2.fread r1.1
    let s1 : IdState := { s with
      printFile := r2.2, byte := r2.1,
      headData := { pos := atoi p1.1, tam := atoi p2.1, ori := r1.1 } }
    if r2.1 ≠ 62 then (false, s1)
    else (true, { s1 with isOnField := true, totalPrints := (s1.totalPrints + 1) % 4294967296 })
  else (true, s)

/-- Model of `fseek(fileToIdentify, offset, SEEK_SET)` with a `long` offset: a
negative offset is refused and the position stays. -/
def seekSet (filePos : Nat) (offset : Int) : Nat :=
  if offset < 0 then filePos else offset.toNat

/-- Model of `fread(&byte2, 1, 1, fileToIdentify)`: the new `byte2` and position. -/
def readCandidate (file : List Nat) (filePos byte2 : Nat) : Nat × Nat :=
  match file[filePos]? with
  | some b => (b, filePos + 1)
  | none => (byte2, filePos)

/-- Lines 459-466: `while (fieldCharCounter <= headData.tam && !feof(printFile))`,
by recursion on the unread bytes of the print file. -/
def compareLoop (file : List Nat) (tam : Nat) :
    List Nat → Bool → Nat → Nat → Nat → Nat → Reader × Nat × Nat × Nat × Nat
  | [], eof, filePos, byte, byte2, counter =>
    if counter ≤ tam ∧ eof = false then
      if byte ≠ byte2 then ({ rest := [], eof := eof }, filePos, byte, byte2, counter)
      else
        let c := readCandidate file filePos byte2
        ({ rest := [], eof := true }, c.2, byte, c.1, (counter + 1) % 4294967296)
    else ({ rest := [], eof := eof }, filePos, byte, byte2, counter)
  | b :: rest, eof, filePos, byte, byte2, counter =>
    if counter ≤ tam ∧ eof = false then
      if byte ≠ byte2 then ({ rest := b :: rest, eof := eof }, filePos, byte, byte2, counter)
      else
        let c := readCandidate file filePos byte2
        compareLoop file tam rest eof c.2 b c.1 ((counter + 1) % 4294967296)
    else ({ rest := b :: rest, eof := eof }, filePos, byte, byte2, counter)

/-- Lines 478-482: `while (auxCounter < headData.tam && !feof(printFile))`, by
recursion on the unread bytes of the print file.  Returns the stream, `byte`
and `auxCounter`. -/
def skipLoop (tam : Nat) : List Nat → Bool → Nat → Nat → Reader × Nat × Nat
  | [], eof, byte, aux =>
    if aux < tam ∧ eof = false then ({ rest := [], eof := true }, byte, (aux + 1) % 4294967296)
    else ({ rest := [], eof := eof }, byte, aux)
  | b :: rest, eof, byte, aux =>
    if aux < tam ∧ eof = false then skipLoop tam rest eof b ((aux + 1) % 4294967296)
    else ({ rest := b :: rest, eof := eof }, byte, aux)

/-- Lines 455-467: the comparison of one field with the file to identify. -/
def compareField (file : List Nat) (s : IdState) : IdState :=
  if s.isOnField then
    let r := s.printFile.fread s.byte
    let c := readCandidate file s.filePos s.byte2
    let l := compareLoop file (toUnsigned s.headData.tam) r.2.rest r.2.eof c.2 r.1 c.1
      s.fieldCharCounter
    { s with printFile := l.1, filePos := l.2.1, byte := l.2.2.1, byte2 := l.2.2.2.1,
             fieldCharCounter := l.2.2.2.2 }
  else s

/-- Lines 469-485: count the field as detected, or skip the bytes not yet read;
then reset `fieldCharCounter` and `isOnField`. -/
def settleField (s : IdState) : IdState :=
  if s.fieldCharCounter = toUnsigned s.headData.tam then
    { s with
      detectedPrints := (s.detectedPrints + 1) % 4294967296,
      firstHeaderStrike :=
        if s.headData.pos = 0 ∧ s.headData.ori = 100 then true else s.firstHeaderStrike,
      fieldCharCounter := 0, isOnField := false }
  else
    let k := skipLoop (toUnsigned s.headData.tam) s.printFile.rest s.printFile.eof s.byte
      s.fieldCharCounter
    { s with printFile := k.1, byte := k.2.1, auxCounter := k.2.2,
             fieldCharCounter := 0, isOnField := false }

/-- One pass of the body of `while (!feof(printFile))` (lines 430-486) for a
file to identify with bytes `file`.  `false` in the first component is a
`break`. -/
def identifyBody (file : List Nat) (s : IdState) : Bool × IdState :=
  let h := parseHeader s
  if h.1 = false then (false, h.2)
  else
    let s1 := h.2
    if s1.headData.ori = 100 then
      let s2 := { s1 with filePos := seekSet s1.filePos s1.headData.pos }
      (true, settleField (compareField file s2))
    else if s1.headData.ori = 105 then
      let s2 := { s1 with filePos := seekSet s1.filePos ((file.length : Int) - s1.headData.pos) }
      (true, settleField (compareField file s2))
    else (false, s1)

/-- The loop `while (!feof(printFile))` of line 429.  `none` when the fuel runs
out. -/
def identifyLoop (file : List Nat) : Nat → IdState → Option IdState
  | 0, _ => none
  | fuel + 1, s =>
    if s.printFile.eof then some s
    else
      let r := identifyBody file s
      if r.1 = false then some r.2 else identifyLoop file fuel r.2

/-- Lines 424-494 for one print file with name `ext` and bytes `print`: open it,
read the first byte, run the loop, push the guess and reset `insertor`.
Returns the guess and the state that the next print file starts from. -/
def identifyPrint (file : List Nat) (fuel : Nat) (ext : String) (print : List Nat)
    (s : IdState) : Option (guess × IdState) :=
  let r := ({ rest := print, eof := false } : Reader).fread s.byte
  match identifyLoop file fuel { s with printFile := r.2, byte := r.1 } with
  | some t =>
    some ({ ext := ext, totalPrints := t.totalPrints, detectedPrints := t.detectedPrints,
            firstHeaderStrike := t.firstHeaderStrike },
          { t with totalPrints := 0, detectedPrints := 0, firstHeaderStrike := false })
  | none => none

/-- The loop over the print files (lines 420-497); `prints` holds, for every
entry of the folder with extension `print`, its name without the extension and
its bytes. -/
def identifyPrints (file : List Nat) (fuel : Nat) :
    List (String × List Nat) → IdState → Option (List guess)
  | [], _ => some []
  | p :: ps, s =>
    match identifyPrint file fuel p.1 p.2 s with
    | some r =>
      match identifyPrints file fuel ps r.2 with
      | some gs => some (r.1 :: gs)
      | none => none
    | none => none

/-- The state before the first print file: `filesize` has left the file to
identify at its end; `byte`, `byte2` and `headData` are not initialised. -/
def IdState.init (file : List Nat) (byte byte2 : Nat) (headData : header) : IdState :=
  { printFile := { rest := [], eof := false }, filePos := file.length,
    byte := byte, byte2 := byte2, headData := headData, isOnField := false,
    fieldCharCounter := 0, auxCounter := 0, totalPrints := 0, detectedPrints := 0,
    firstHeaderStrike := false }

/-- Number of binary digits of `n`, counted by halving at most `fuel` times. -/
def bitLengthLoop : Nat → Nat → Nat
  | 0, _ => 0
  | fuel + 1, n => if n = 0 then 0 else bitLengthLoop fuel (n / 2) + 1

/-- Number of significant bits of a natural number. -/
def bitLength (n : Nat) : Nat := bitLengthLoop n n

/-- Conversion of a natural number to `float` (binary32, 24 significant bits,
round to nearest, ties to even); the value of the result. -/
def toFloat (n : Nat) : Nat :=
  if n < 16777216 then n
  else
    let e := bitLength n - 24
    let m := n / 2 ^ e
    let r := n % 2 ^ e
    let half := 2 ^ (e - 1)
    if r > half ∨ (r = half ∧ m % 2 = 1) then (m + 1) * 2 ^ e else m * 2 ^ e

/-- Lines 503-510 for one guess: the `ans` that the loop builds.  `none` stands
for undefined behaviour: a division by zero, a `float` outside `int`, an `int`
overflow. -/
def answerOf (g : guess) : Option ans :=
  if g.totalPrints = 0 then none
  else
    let pcent := toFloat ((g.detectedPrints * 100 % 4294967296) / g.totalPrints)
    let w := toFloat (pcent * toFloat g.detectedPrints)
    let weight := if g.firstHeaderStrike then w * 10 else w
    if 2147483648 ≤ w ∨ 2147483648 ≤ weight then none
    else
      some { ext := g.ext, weight := weight, pcent := pcent,
             tp := Int.bmod g.totalPrints 4294967296, gotHeader := g.firstHeaderStrike }

/-- The loop of lines 501-513: the answers with `pcent > 0`, in the order of
the guesses. -/
def answers : List guess → Option (List ans)
  | [] => some []
  | g :: gs =>
    match answerOf g with
    | some a =>
      match answers gs with
      | some as => some (if a.pcent > 0 then a :: as else as)
      | none => none
    | none => none

/-- The guesses of `identify` for the file to identify and the print files. -/
def identifyGuesses (file : List Nat) (prints : List (String × List Nat)) (fuel : Nat)
    (byte byte2 : Nat) (headData : header) : Option (List guess) :=
  identifyPrints file fuel prints (IdState.init file byte byte2 headData)

/-- The comparator `compareAnswers` (lines 190-193). -/
def compareAnswers (a b : ans) : Bool := decide (a.weight > b.weight)

/-- The call `sort(answers.begin(), answers.end(), compareAnswers)` of line 514.
`std::sort` belongs to the C++ library; by its contract the result is a
rearrangement of the vector in which no element is followed by one that the
comparator puts before it, and the order of elements that the comparator does
not separate is left open.  The model takes the result of an insertion sort,
which keeps such elements in the order of the vector. -/
def sortAnswers (l : List ans) : List ans :=
  l.insertionSort (fun a b => compareAnswers b a = false)

/-- Model of `identify` up to the sorted vector `answers` (lines 372-514); the
lines after it only print the vector.  `none` when the fuel runs out or the
behaviour of the scorer is undefined. -/
def identify (file : List Nat) (prints : List (String × List Nat)) (fuel : Nat)
    (byte byte2 : Nat) (headData : header) : Option (List ans) :=
  match identifyGuesses file prints fuel byte byte2 headData with
  | some gs =>
    match answers gs with
    | some kept => some (sortAnswers kept)
    | none => none
  | none => none

/-! ## Notions of the specification -/

/-- Every blank cell of `old` is a blank cell of `new`, and `new` has at least as
many blank cells as `old`. -/
def KeepsBlanks (old new : List Nat) : Prop :=
  (∀ i : Nat, old[i]? = some 32 → new[i]? = some 32) ∧ old.count 32 ≤ new.count 32

/-- A run of calls of `learn` for an extension whose two learn files exist: each
call comes with its sample and the values of its uninitialised locals. -/
def learnMany (learn1 learn2 : List Nat) :
    List (List Nat × Nat × Nat) → Option (List Nat × List Nat)
  | [] => some (learn1, learn2)
  | call :: calls =>
    match learn (some learn1) (some learn2) call.1 call.2.1 call.2.2 with
    | some r => learnMany r.1 r.2 calls
    | none => none

/-- The consensus of two byte sequences, cell by cell: the common byte where the
two agree, a blank where they differ. -/
def consensus (a b : List Nat) : List Nat :=
  List.zipWith (fun x y => if x = y then x else 32) a b

/-- The cells `o`, ..., `o + l - 1` of a learn file are a maximal run of cells
that are not blank: the run is not empty, none of its cells is blank, and the
cells next to it on either side are blank or outside the file. -/
def IsRun (cells : List Nat) (o l : Nat) : Prop :=
  0 < l ∧ (∀ k, k < l → cells.getD (o + k) 32 ≠ 32) ∧
    (o = 0 ∨ cells.getD (o - 1) 32 = 32) ∧ cells.getD (o + l) 32 = 32

/-! ## Lemmas on streams -/

theorem fread_at (pre : List Nat) (a : Nat) (post : List Nat) (e : Bool) (byte : Nat) :
    File.fread { data := pre ++ a :: post, pos := pre.length, eof := e } byte
      = (a, { data := pre ++ a :: post, pos := pre.length + 1, eof := e }) := by
  have h : (pre ++ a :: post)[pre.length]? = some a := by
    rw [List.getElem?_append_right (le_refl _)]; simp
  simp only [File.fread, h]

theorem fread_end (pre : List Nat) (e : Bool) (byte : Nat) :
    File.fread { data := pre, pos := pre.length, eof := e } byte
      = (byte, { data := pre, pos := pre.length, eof := true }) := by
  simp [File.fread]

theorem blank_at (pre : List Nat) (a : Nat) (post : List Nat) (e : Bool) :
    File.blank { data := pre ++ a :: post, pos := pre.length + 1, eof := e }
      = { data := pre ++ 32 :: post, pos := pre.length + 1, eof := false } := by
  simp [File.blank, writeAt]

theorem blank_last (pre : List Nat) (e : Bool) :
    File.blank { data := pre ++ [32], pos := pre.length + 1, eof := e }
      = { data := pre ++ [32], pos := pre.length + 1, eof := false } := by
  simp [File.blank, writeAt]

/-! ## The first-time copy -/

theorem seedDerLoop_eq (input out : List Nat) : seedDerLoop input out = out ++ input := by
  induction input generalizing out with
  | nil => simp [seedDerLoop]
  | cons b rest ih => simp [seedDerLoop, ih]

theorem seedInvLoop_eq (input : List Nat) :
    ∀ (fuel index byte : Nat) (out : List Nat), 1 ≤ index → index ≤ input.length + 1 →
      input.length + 1 < fuel + index →
      seedInvLoop input input.length fuel index byte out
        = some (out ++ (input.take (input.length + 1 - index)).reverse) := by
  intro fuel
  induction fuel with
  | zero => intro index byte out h1 h3 h2; omega
  | succ fuel ih =>
    intro index byte out h1 h3 h2
    unfold seedInvLoop
    by_cases hle : index ≤ input.length
    · have hlt : input.length - index < input.length := by omega
      have hget : input[input.length - index]? = some (input[input.length - index]) :=
        List.getElem?_eq_getElem hlt
      simp only [hle, if_true, File.fread, hget]
      rw [ih (index + 1) _ _ (by omega) (by omega) (by omega)]
      have e1 : input.length + 1 - index = (input.length - index) + 1 := by omega
      have e2 : input.length + 1 - (index + 1) = input.length - index := by omega
      rw [e1, e2, List.take_succ, hget]
      simp only [Option.toList, List.reverse_append, List.reverse_cons, List.reverse_nil,
        List.nil_append, List.append_assoc]
    · have e1 : input.length + 1 - index = 0 := by omega
      simp [hle, e1]


theorem consensus_comm (a b : List Nat) : consensus a b = consensus b a := by
  induction a generalizing b with
  | nil => cases b <;> simp [consensus]
  | cons x xs ih =>
    cases b with
    | nil => simp [consensus]
    | cons y ys =>
      have h := ih ys
      simp only [consensus] at h ⊢
      simp only [List.zipWith_cons_cons, h]
      by_cases hxy : x = y
      · simp [hxy]
      · have hyx : ¬ y = x := fun e => hxy e.symm
        simp [hxy, hyx]

/-! ## The STRAIGHT update on a sample as long as the learn file -/

theorem learnDerLoop_same_length (input : List Nat) :
    ∀ (pre cells : List Nat) (byte byte2 : Nat), cells.length = input.length →
      (cells = [] → pre ≠ [] ∧ (byte2 ≠ 32 → byte ≠ byte2 → ∃ q, pre = q ++ [32])) →
      (learnDerLoop input byte byte2
        { data := pre ++ cells, pos := pre.length, eof := false }).2.2.data
        = pre ++ consensus cells input := by
  induction input with
  | nil =>
    intro pre cells byte byte2 hlen hlast
    have hc : cells = [] := List.length_eq_zero.mp hlen
    subst hc
    obtain ⟨hpre, hq⟩ := hlast rfl
    simp only [List.append_nil, learnDerLoop, learnStep, fread_end, consensus,
      List.zipWith_nil_left]
    by_cases h32 : byte2 = 32
    · simp [h32]
    · by_cases hne : byte = byte2
      · simp [h32, hne]
      · obtain ⟨q, rfl⟩ := hq h32 hne
        have hb := blank_last q true
        simp only [List.length_append, List.length_singleton] at hb ⊢
        simp [h32, hne, hb]
  | cons b rest ih =>
    intro pre cells byte byte2 hlen hlast
    cases cells with
    | nil => simp at hlen
    | cons a as =>
      have hlen1 : as.length = rest.length := by simpa using hlen
      simp only [learnDerLoop, learnStep, fread_at, consensus, List.zipWith_cons_cons]
      by_cases h32 : a = 32
      · have h := ih (pre ++ [a]) as b a hlen1 (fun _ => ⟨by simp, fun hh => absurd h32 hh⟩)
        simp only [List.append_assoc, List.singleton_append, List.length_append,
          List.length_singleton, consensus] at h
        simp only [h32, if_true, Bool.false_eq_true, if_false] at h ⊢
        rw [h]; simp
      · by_cases hba : b = a
        · have h := ih (pre ++ [a]) as b a hlen1
            (fun _ => ⟨by simp, fun _ hh => absurd hba hh⟩)
          simp only [List.append_assoc, List.singleton_append, List.length_append,
            List.length_singleton, consensus] at h
          simp only [h32, hba, if_true, if_false, Bool.false_eq_true, ne_eq, not_true_eq_false]
            at h ⊢
          rw [h]
        · have h := ih (pre ++ [32]) as b a hlen1 (fun _ => ⟨by simp, fun _ _ => ⟨pre, rfl⟩⟩)
          have hab : ¬ a = b := fun e => hba e.symm
          simp only [List.append_assoc, List.singleton_append, List.length_append,
            List.length_singleton, consensus] at h
          simp only [h32, hba, hab, if_true, if_false, Bool.false_eq_true, ne_eq,
            not_false_eq_true, blank_at]
          rw [h]

theorem learnDer_same_length (buffer input : List Nat) (byte byte2 : Nat)
    (hlen : buffer.length = input.length) (hne : buffer ≠ []) :
    (learnDerLoop input byte byte2 (File.opened buffer)).2.2.data = consensus buffer input := by
  have h := learnDerLoop_same_length input [] buffer byte byte2 hlen (fun e => absurd e hne)
  simpa [File.opened] using h

/-! ## The INVERTED update loop ends -/

theorem blank_room (f : File) (h : f.data.length ≤ f.pos) :
    f.blank.data.length - f.blank.pos = 0 := by
  unfold File.blank writeAt
  by_cases hp : f.pos = 0
  · have hl : f.data.length = 0 := by omega
    simp [hp, hl]
  · by_cases hlt : f.pos - 1 < f.data.length
    · simp [hp, hlt]; omega
    · simp [hp, hlt]; omega

theorem blank_room_read (f : File) (h : f.pos ≤ f.data.length) (hp : f.pos ≠ 0) :
    f.blank.data.length - f.blank.pos = f.data.length - f.pos := by
  unfold File.blank writeAt
  have hlt : f.pos - 1 < f.data.length := by omega
  simp [hp, hlt]; omega

theorem learnInvLoop_ends (input : List Nat) (endIndex : Nat) :
    ∀ (fuel index byte byte2 : Nat) (out : File),
      2 * (out.data.length - out.pos) + (if out.eof then 0 else 1)
        + 2 * (endIndex + 1 - index) < fuel →
      ∃ r, learnInvLoop input endIndex fuel index byte byte2 out = some r := by
  intro fuel
  induction fuel with
  | zero => intro index byte byte2 out h; omega
  | succ fuel ih =>
    intro index byte byte2 out h
    unfold learnInvLoop
    by_cases hc : out.eof = false ∧ index ≤ endIndex
    · obtain ⟨he, hi⟩ := hc
      simp only [he, hi, and_self, if_true]
      simp only [he, Bool.false_eq_true, if_false] at h
      cases hget : out.data[out.pos]? with
      | some c =>
        have hlt : out.pos < out.data.length := by
          by_contra hge
          rw [List.getElem?_eq_none (by omega)] at hget
          exact absurd hget (by simp)
        simp only [File.fread, hget]
        by_cases h32 : c = 32
        · simp only [h32, if_true]
          apply ih
          simp only [he, Bool.false_eq_true, if_false]
          omega
        · simp only [h32, if_false]
          split
          · apply ih
            have hr := blank_room_read { out with pos := out.pos + 1 } (by simpa using hlt)
              (by simp)
            simp only at hr
            have he2 : (File.blank { out with pos := out.pos + 1 }).eof = false := rfl
            simp only [he2, Bool.false_eq_true, if_false]
            omega
          · apply ih
            simp only [he, Bool.false_eq_true, if_false]
            omega
      | none =>
        have hge : out.data.length ≤ out.pos := by
          by_contra hlt
          rw [List.getElem?_eq_getElem (by omega)] at hget
          exact absurd hget (by simp)
        simp only [File.fread, hget]
        by_cases h32 : byte2 = 32
        · simp only [h32, if_true]
          apply ih
          simp only [if_true]
          omega
        · simp only [h32, if_false]
          split
          · apply ih
            have hr := blank_room { out with eof := true } (by simpa using hge)
            have he2 : (File.blank { out with eof := true }).eof = false := rfl
            simp only [he2, Bool.false_eq_true, if_false]
            omega
          · apply ih
            simp only [if_true]
            omega
    · simp [hc]

theorem learnInv_ends (buffer input : List Nat) (byte byte2 : Nat) :
    ∃ r, learnInvLoop input input.length (learnInvFuel buffer input) 1 byte byte2
      (File.opened buffer) = some r := by
  apply learnInvLoop_ends
  simp [File.opened, learnInvFuel]
  omega


/-! ## The scan of a learn file -/

theorem readChain_spec (rest : List Nat) :
    ∀ byte, (byte :: rest).getLast? = some 32 →
      ∃ chain rest1, readChain byte rest = some (chain, rest1) ∧
        byte :: rest = chain ++ 32 :: rest1 ∧ ∀ c ∈ chain, c ≠ 32 := by
  induction rest with
  | nil =>
    intro byte h
    have hb : byte = 32 := by simpa using h
    subst hb
    exact ⟨[], [], by simp [readChain], by simp, by simp⟩
  | cons b rest ih =>
    intro byte h
    by_cases hb : byte = 32
    · subst hb
      exact ⟨[], b :: rest, by simp [readChain], by simp, by simp⟩
    · have h1 : (b :: rest).getLast? = some 32 := by
        rw [List.getLast?_cons_cons] at h; exact h
      obtain ⟨chain, rest1, hr, heq, hall⟩ := ih b h1
      refine ⟨byte :: chain, rest1, ?_, ?_, ?_⟩
      · simp [readChain, hb, hr]
      · simp [heq]
      · intro c hc
        rcases List.mem_cons.mp hc with rfl | hc
        · exact hb
        · exact hall c hc

theorem getD_chain (pre chain post : List Nat) (k : Nat) (hk : k < chain.length)
    (hall : ∀ c ∈ chain, c ≠ 32) : (pre ++ (chain ++ post)).getD (pre.length + k) 32 ≠ 32 := by
  rw [List.getD_append_right _ _ _ _ (by omega)]
  rw [show pre.length + k - pre.length = k by omega, List.getD_append _ _ _ _ hk]
  rw [List.getD_eq_getElem _ _ hk]
  exact hall _ (List.getElem_mem _)

theorem getD_after (pre : List Nat) (c : Nat) (post : List Nat) :
    (pre ++ c :: post).getD pre.length 32 = c := by
  rw [List.getD_append_right _ _ _ _ (le_refl _)]
  simp

theorem getD_blank_or_out (pre : List Nat) (o : Nat) (h : pre.length ≤ o) :
    (pre ++ [32]).getD o 32 = 32 := by
  rw [List.getD_append_right _ _ _ _ h]
  cases hk : o - pre.length with
  | zero => simp
  | succ n => simp

theorem scanLoop_succ (emit : Nat → List Nat → PrintRec) (fuel byte : Nat) (rest : List Nat)
    (tell : Nat) :
    scanLoop emit (fuel + 1) byte rest tell =
      if byte ≠ 32 then
        match readChain byte rest with
        | none => Outcome.hang
        | some r =>
          Outcome.after (if r.1.length > 0 then [emit (tell - 1) r.1] else [])
            (scanLoop emit fuel 32 r.2 (tell + r.1.length))
      else
        match rest with
        | [] => Outcome.done []
        | b :: rest1 => scanLoop emit fuel b rest1 (tell + 1) := rfl

theorem scanLoop_spec (emit : Nat → List Nat → PrintRec) :
    ∀ (fuel : Nat) (pre : List Nat) (byte : Nat) (rest : List Nat),
      rest.length < fuel → (byte :: rest).getLast? = some 32 →
      (pre = [] ∨ (∃ q, pre = q ++ [32]) ∨ byte = 32) →
      ∃ runs : List (Nat × List Nat),
        scanLoop emit fuel byte rest (pre.length + 1)
          = Outcome.done (runs.map (fun x => emit x.1 x.2)) ∧
        runs.Pairwise (fun x y => x.1 < y.1) ∧
        (∀ x ∈ runs, pre.length ≤ x.1 ∧ IsRun (pre ++ byte :: rest) x.1 x.2.length ∧
          x.2 = ((pre ++ byte :: rest).drop x.1).take x.2.length) ∧
        (∀ o l, pre.length ≤ o → IsRun (pre ++ byte :: rest) o l →
          (o, ((pre ++ byte :: rest).drop o).take l) ∈ runs) ∧
        runs.flatMap (fun x => x.2) = (byte :: rest).filter (fun c => c ≠ 32) := by
  intro fuel
  induction fuel with
  | zero => intro pre byte rest h; omega
  | succ fuel ih =>
    intro pre byte rest hfuel hlast hstart
    rw [scanLoop_succ]
    by_cases hb : byte = 32
    · subst hb
      simp only [ne_eq, not_true_eq_false, if_false]
      cases rest with
      | nil =>
        refine ⟨[], by simp, by simp, by simp, ?_, by simp⟩
        intro o l ho hrun
        have h0 := hrun.2.1 0 hrun.1
        rw [Nat.add_zero, getD_blank_or_out pre o ho] at h0
        exact absurd rfl h0
      | cons b r =>
        have hlast1 : (b :: r).getLast? = some 32 := by
          rw [List.getLast?_cons_cons] at hlast; exact hlast
        obtain ⟨runs, hrun, hsorted, hmem, hall, hcat⟩ :=
          ih (pre ++ [32]) b r (by simpa using hfuel) hlast1 (Or.inr (Or.inl ⟨pre, rfl⟩))
        simp only [List.length_append, List.length_singleton, List.append_assoc,
          List.singleton_append] at hrun hmem hall
        refine ⟨runs, hrun, hsorted, ?_, ?_, ?_⟩
        · intro x hx
          obtain ⟨h1, h2, h3⟩ := hmem x hx
          exact ⟨by omega, h2, h3⟩
        · intro o l ho hr
          have h0 := hr.2.1 0 hr.1
          rw [Nat.add_zero] at h0
          have hne : o ≠ pre.length := by
            intro e
            rw [e, getD_after] at h0
            exact absurd rfl h0
          exact hall o l (by omega) hr
        · rw [hcat]; simp
    · obtain ⟨chain, rest1, hr, heq, hfix⟩ := readChain_spec rest byte hlast
      have hpos : 0 < chain.length := by
        cases chain with
        | nil => simp at heq; exact absurd heq.1 hb
        | cons c cs => simp
      have hlen : rest.length = chain.length + rest1.length := by
        have := congrArg List.length heq
        simp at this; omega
      have hlast1 : (32 :: rest1).getLast? = some 32 := by
        rw [heq, List.getLast?_append] at hlast
        cases hg : (32 :: rest1).getLast? with
        | none => simp at hg
        | some v => rw [hg] at hlast; simpa using hlast
      obtain ⟨runs, hrun, hsorted, hmem, hall, hcat⟩ :=
        ih (pre ++ chain) 32 rest1 (by omega) hlast1 (Or.inr (Or.inr rfl))
      have hB : pre ++ byte :: rest = pre ++ (chain ++ 32 :: rest1) := by rw [heq]
      have hB2 : pre ++ chain ++ 32 :: rest1 = pre ++ (chain ++ 32 :: rest1) := by simp
      rw [hB2, ← hB] at hmem hall
      have htell : (pre ++ chain).length + 1 = pre.length + 1 + chain.length := by
        simp; omega
      rw [htell] at hrun
      have hfirst : IsRun (pre ++ byte :: rest) pre.length chain.length := by
        refine ⟨hpos, ?_, ?_, ?_⟩
        · intro k hk
          rw [hB]; exact getD_chain pre chain _ k hk hfix
        · rcases hstart with h | ⟨q, rfl⟩ | h
          · left; simp [h]
          · right
            simp only [List.length_append, List.length_singleton, Nat.add_sub_cancel,
              List.append_assoc, List.singleton_append]
            exact getD_after q 32 _
          · exact absurd h hb
        · rw [hB, ← List.append_assoc]
          have := getD_after (pre ++ chain) 32 rest1
          simpa using this
      have hchain : chain = ((pre ++ byte :: rest).drop pre.length).take chain.length := by
        rw [hB]; simp
      refine ⟨(pre.length, chain) :: runs, ?_, ?_, ?_, ?_, ?_⟩
      · simp [hb, hr, hrun, hpos, Outcome.after]
      · refine List.Pairwise.cons ?_ hsorted
        intro y hy
        have := (hmem y hy).1
        simp at this ⊢; omega
      · intro x hx
        rcases List.mem_cons.mp hx with rfl | hx
        · exact ⟨le_refl _, hfirst, hchain⟩
        · obtain ⟨h1, h2, h3⟩ := hmem x hx
          refine ⟨?_, h2, h3⟩
          simp at h1; omega
      · intro o l ho hrun1
        by_cases hfar : pre.length + chain.length ≤ o
        · exact List.mem_cons_of_mem _ (hall o l (by simpa using hfar) hrun1)
        · by_cases hat : o = pre.length
          · subst hat
            have hl : l = chain.length := by
              by_contra hne
              rcases Nat.lt_or_gt_of_ne hne with hlt | hgt
              · exact hfirst.2.1 l hlt hrun1.2.2.2
              · exact hrun1.2.1 chain.length hgt hfirst.2.2.2
            subst hl
            rw [← hchain]
            exact List.mem_cons_self _ _
          · exfalso
            have hprev := hrun1.2.2.1
            rcases hprev with h0 | h32
            · omega
            · have := hfirst.2.1 (o - 1 - pre.length) (by omega)
              rw [show pre.length + (o - 1 - pre.length) = o - 1 by omega] at this
              exact this h32
      · have hkeep : chain.filter (fun c => decide (c ≠ 32)) = chain :=
          List.filter_eq_self.mpr (fun c hc => by simpa using hfix c hc)
        rw [List.flatMap_cons, hcat, heq, List.filter_append, hkeep]

theorem scanFile_spec (emit : Nat → List Nat → PrintRec) (bytes : List Nat)
    (h : bytes = [] ∨ bytes.getLast? = some 32) :
    ∃ runs : List (Nat × List Nat),
      scanFile emit bytes = Outcome.done (runs.map (fun x => emit x.1 x.2)) ∧
      runs.Pairwise (fun x y => x.1 < y.1) ∧
      (∀ x ∈ runs, IsRun bytes x.1 x.2.length ∧ x.2 = (bytes.drop x.1).take x.2.length) ∧
      (∀ o l, IsRun bytes o l → (o, (bytes.drop o).take l) ∈ runs) ∧
      runs.flatMap (fun x => x.2) = bytes.filter (fun c => c ≠ 32) := by
  cases bytes with
  | nil =>
    refine ⟨[], by simp [scanFile], by simp, by simp, ?_, by simp⟩
    intro o l hrun
    have h0 := hrun.2.1 0 hrun.1
    simp at h0
  | cons b rest =>
    have hlast : (b :: rest).getLast? = some 32 := by
      rcases h with h | h
      · simp at h
      · exact h
    obtain ⟨runs, hrun, hsorted, hmem, hall, hcat⟩ :=
      scanLoop_spec emit (rest.length + 1) [] b rest (by omega) hlast (Or.inl rfl)
    simp only [List.length_nil, Nat.zero_add, List.nil_append] at hrun hmem hall
    refine ⟨runs, by simpa [scanFile] using hrun, hsorted, ?_, ?_, hcat⟩
    · intro x hx
      exact (hmem x hx).2
    · intro o l hr
      exact hall o l (Nat.zero_le _) hr

theorem invLiteralLoop_eq (chain : List Nat) :
    ∀ n, n < chain.length →
      invLiteralLoop chain n ++ [chain.getD 0 0] = (chain.take (n + 1)).reverse := by
  intro n
  induction n with
  | zero =>
    intro h
    cases chain with
    | nil => simp at h
    | cons c cs => simp [invLiteralLoop]
  | succ n ih =>
    intro h
    have hget : chain[n + 1]? = some (chain[n + 1]) := List.getElem?_eq_getElem h
    rw [List.take_succ, hget]
    simp only [invLiteralLoop, List.cons_append, ih (by omega), Option.toList,
      List.reverse_append, List.reverse_cons, List.reverse_nil, List.nil_append,
      List.singleton_append, List.cons.injEq, and_true]
    rw [List.getD_eq_getElem _ _ h]

theorem emitInv_lit (idx : Nat) (chain : List Nat) (h : 0 < chain.length) :
    (emitInv idx chain).lit = chain.reverse := by
  have := invLiteralLoop_eq chain (chain.length - 1) (by omega)
  rw [show chain.length - 1 + 1 = chain.length by omega, List.take_length] at this
  simpa [emitInv] using this

theorem run_in_range (cells : List Nat) (o l : Nat) (h : IsRun cells o l) :
    o + l ≤ cells.length := by
  by_contra hlt
  have h0 := h.2.1 (l - 1) (by have := h.1; omega)
  rw [List.getD_eq_default _ _ (by have := h.1; omega)] at h0
  exact h0 rfl

theorem learn_seed (learn1 learn2 : Option (List Nat)) (input : List Nat) (byte byte2 : Nat)
    (h : learn1 = none ∨ learn2 = none) :
    learn learn1 learn2 input byte byte2 = some (input, input.reverse) := by
  have hinv := seedInvLoop_eq input (input.length + 1) 1 byte [] (le_refl _) (by omega)
    (by omega)
  have hder := seedDerLoop_eq input []
  simp only [Nat.add_sub_cancel, List.take_length, List.nil_append] at hinv hder
  rcases h with h | h
  · subst h
    simp [learn, hinv, hder]
  · subst h
    cases learn1 <;> simp [learn, hinv, hder]

/-! ## learn: the claims -/

/-- C3 (forward update), evaluated on the learn file `"A"` and the sample `"AB"`:
cell 0 holds `'A'` and the sample has `'A'` at offset 0, yet the update leaves a
blank there.  The pass after the last cell compares the sample byte `'B'` with
the stale `byte2` and blanks the cell before the position. -/
theorem learn_forward_blanks_equal_cell (byte byte2 : Nat) :
    learnDer [65] [65, 66] byte byte2 = [32] := by
  rfl

/-- C4 (reverse update against the forward rule), evaluated on the learn file
`" A"` and the sample `"AB"`: the INVERTED loop blanks cell 1, the STRAIGHT rule
on the reversed sample `"BA"` keeps it.  The `continue` on the blank cell 0 skips
`index++`, so cell 1 is compared with the sample byte at distance 0 from the end. -/
theorem learn_inverted_not_symmetric (byte byte2 : Nat) :
    learnInv [32, 65] [65, 66] byte byte2 = some [32, 32] ∧
      learnDer [32, 65] [65, 66].reverse byte byte2 = [32, 65] ∧
      consensus [32, 65] [65, 66].reverse = [32, 65] := by
  exact ⟨rfl, rfl, rfl⟩

/-- C5 (seed case): when one of the two learn files is missing, `learn` writes the
sample as the STRAIGHT learn file and the reversed sample as the INVERTED one. -/
theorem learn_new_extension_copies (learn1 learn2 : Option (List Nat)) (input : List Nat)
    (byte byte2 : Nat) (h : learn1 = none ∨ learn2 = none) :
    learn learn1 learn2 input byte byte2 = some (input, input.reverse) :=
  learn_seed learn1 learn2 input byte byte2 h

/-- Witness of C5: the learn file of the INVERTED side exists, the STRAIGHT one is missing. -/
theorem learn_new_extension_copies_witness :
    ((none : Option (List Nat)) = none ∨ some [7] = none) ∧
      learn none (some [7]) [80, 75, 3, 4] 0 0 = some ([80, 75, 3, 4], [80, 75, 3, 4].reverse) :=
  ⟨Or.inl rfl, learn_new_extension_copies none (some [7]) [80, 75, 3, 4] 0 0 (Or.inl rfl)⟩

/-- C10 (consensus commutativity): for two non-empty samples of the same length,
learning `a` then `b` on a new extension and learning `b` then `a` both leave the
STRAIGHT learn file `consensus a b`: `a[i]` where `a[i] = b[i]`, a blank elsewhere. -/
theorem consensus_either_order (a b : List Nat) (b1 c1 b2 c2 b3 c3 b4 c4 : Nat)
    (hlen : a.length = b.length) (hne : a ≠ []) :
    ∃ r r1,
      (learn none none a b1 c1).bind (fun s => learn (some s.1) (some s.2) b b2 c2)
        = some (consensus a b, r) ∧
      (learn none none b b3 c3).bind (fun s => learn (some s.1) (some s.2) a b4 c4)
        = some (consensus a b, r1) := by
  have hneb : b ≠ [] := by
    intro e; rw [e] at hlen; exact hne (List.length_eq_zero.mp hlen)
  obtain ⟨t, ht⟩ := learnInv_ends a.reverse b
    (learnDerLoop b b2 c2 (File.opened a)).1 (learnDerLoop b b2 c2 (File.opened a)).2.1
  obtain ⟨t1, ht1⟩ := learnInv_ends b.reverse a
    (learnDerLoop a b4 c4 (File.opened b)).1 (learnDerLoop a b4 c4 (File.opened b)).2.1
  refine ⟨t.2.2.data, t1.2.2.data, ?_, ?_⟩
  · rw [learn_seed none none a b1 c1 (Or.inl rfl)]
    simp only [Option.some_bind, learn, ht, learnDer_same_length a b b2 c2 hlen hne]
  · rw [learn_seed none none b b3 c3 (Or.inl rfl)]
    simp only [Option.some_bind, learn, ht1, learnDer_same_length b a b4 c4 hlen.symm hneb,
      consensus_comm a b]

/-- Witness of C10: two samples of four bytes that differ at offsets 1 and 3. -/
theorem consensus_either_order_witness :
    [77, 90, 1, 2].length = [77, 91, 1, 3].length ∧ [77, 90, 1, 2] ≠ [] ∧
    ∃ r r1,
      (learn none none [77, 90, 1, 2] 0 0).bind
          (fun s => learn (some s.1) (some s.2) [77, 91, 1, 3] 0 0)
        = some (consensus [77, 90, 1, 2] [77, 91, 1, 3], r) ∧
      (learn none none [77, 91, 1, 3] 0 0).bind
          (fun s => learn (some s.1) (some s.2) [77, 90, 1, 2] 0 0)
        = some (consensus [77, 90, 1, 2] [77, 91, 1, 3], r1) :=
  ⟨by decide, by decide,
    consensus_either_order [77, 90, 1, 2] [77, 91, 1, 3] 0 0 0 0 0 0 0 0 (by decide) (by decide)⟩

/-! ## generatePrint: the claims -/

/-- C6 (forward records): for a STRAIGHT learn file that is empty or ends with a
blank, the scan ends and its strings are exactly the maximal runs of cells that
are not blank: offsets strictly ascending, every string a maximal run with
offset the index of its first cell, length the run length, order `d` and the
cells of the run as bytes; every maximal run has its string; and the print file
starts with the encodings `<offset|length|d>` + bytes of these strings. -/
theorem generatePrint_straight_runs (learn1 : List Nat)
    (h : learn1 = [] ∨ learn1.getLast? = some 32) :
    ∃ recs : List PrintRec,
      scanDer learn1 = Outcome.done recs ∧
      recs.Pairwise (fun r s => r.pos < s.pos) ∧
      (∀ r ∈ recs, IsRun learn1 r.pos r.tam ∧ r.ori = 100 ∧
        r.lit = (learn1.drop r.pos).take r.tam ∧
        r.bytes = [60] ++ decimal r.pos ++ [124] ++ decimal r.tam ++ [124, 100, 62] ++ r.lit) ∧
      (∀ o l, IsRun learn1 o l → ∃ r ∈ recs, r.pos = o ∧ r.tam = l) ∧
      (∀ learn2 inv, scanInv learn2 = Outcome.done inv →
        generatePrint learn1 learn2
          = Outcome.done (recs.flatMap PrintRec.bytes ++ inv.flatMap PrintRec.bytes)) := by
  obtain ⟨runs, hrun, hsorted, hmem, hall, _⟩ := scanFile_spec emitDer learn1 h
  have hder : scanDer learn1 = Outcome.done (runs.map (fun x => emitDer x.1 x.2)) := hrun
  refine ⟨runs.map (fun x => emitDer x.1 x.2), hder, ?_, ?_, ?_, ?_⟩
  · rw [List.pairwise_map]
    exact hsorted
  · intro r hr
    obtain ⟨x, hx, rfl⟩ := List.mem_map.mp hr
    obtain ⟨h1, h2⟩ := hmem x hx
    refine ⟨h1, rfl, h2, ?_⟩
    simp [PrintRec.bytes, emitDer]
  · intro o l hr
    have hx := hall o l hr
    refine ⟨emitDer o ((learn1.drop o).take l), List.mem_map.mpr ⟨_, hx, rfl⟩, rfl, ?_⟩
    have := run_in_range learn1 o l hr
    simp [emitDer]
    omega
  · intro learn2 inv hinv
    simp only [generatePrint, hder, hinv, List.flatMap_append]

/-- Witness of C6: a learn file with the runs `%P` and `DF`. -/
theorem generatePrint_straight_runs_witness :
    ([37, 80, 32, 32, 68, 70, 32] = [] ∨ [37, 80, 32, 32, 68, 70, 32].getLast? = some 32) ∧
    ∃ recs : List PrintRec,
      scanDer [37, 80, 32, 32, 68, 70, 32] = Outcome.done recs ∧
      recs.Pairwise (fun r s => r.pos < s.pos) ∧
      (∀ r ∈ recs, IsRun [37, 80, 32, 32, 68, 70, 32] r.pos r.tam ∧ r.ori = 100 ∧
        r.lit = (List.drop r.pos [37, 80, 32, 32, 68, 70, 32]).take r.tam ∧
        r.bytes = [60] ++ decimal r.pos ++ [124] ++ decimal r.tam ++ [124, 100, 62] ++ r.lit) ∧
      (∀ o l, IsRun [37, 80, 32, 32, 68, 70, 32] o l → ∃ r ∈ recs, r.pos = o ∧ r.tam = l) ∧
      (∀ learn2 inv, scanInv learn2 = Outcome.done inv →
        generatePrint [37, 80, 32, 32, 68, 70, 32] learn2
          = Outcome.done (recs.flatMap PrintRec.bytes ++ inv.flatMap PrintRec.bytes)) :=
  ⟨Or.inr (by decide), generatePrint_straight_runs [37, 80, 32, 32, 68, 70, 32] (Or.inr (by decide))⟩

/-- C7 (address of the REVERSE strings): for an INVERTED learn file that ends with
a blank and a file at least as long that agrees with it on every cell that is
not blank (cell `j` against the byte at distance `j` from the end), the scan
ends and every string it writes has order `i`, as many bytes as its length, an
offset of at most the file size, the position `size - offset` as the target of
the `fseek` of `identify`, and there its bytes in file order. -/
theorem generatePrint_inverted_address (learn2 file : List Nat)
    (hend : learn2.getLast? = some 32) (hlen : learn2.length ≤ file.length)
    (hagree : ∀ j, j < learn2.length → learn2.getD j 32 ≠ 32 →
      file.getD (file.length - 1 - j) 32 = learn2.getD j 32) :
    ∃ recs : List PrintRec,
      scanInv learn2 = Outcome.done recs ∧
      ∀ r ∈ recs, r.ori = 105 ∧ r.lit.length = r.tam ∧ r.pos ≤ file.length ∧
        (∀ filePos, seekSet filePos ((file.length : Int) - (r.pos : Int)) = file.length - r.pos) ∧
        ∀ k, k < r.tam → file[file.length - r.pos + k]? = r.lit[k]? := by
  obtain ⟨runs, hrun, _, hmem, _, _⟩ := scanFile_spec emitInv learn2 (Or.inr hend)
  have hinv : scanInv learn2 = Outcome.done (runs.map (fun x => emitInv x.1 x.2)) := hrun
  refine ⟨runs.map (fun x => emitInv x.1 x.2), hinv, ?_⟩
  intro r hr
  obtain ⟨x, hx, rfl⟩ := List.mem_map.mp hr
  obtain ⟨h1, h2⟩ := hmem x hx
  have hpos := h1.1
  have hrange := run_in_range learn2 x.1 x.2.length h1
  have hlit := emitInv_lit x.1 x.2 hpos
  have hp : (emitInv x.1 x.2).pos = x.1 + x.2.length := rfl
  have ht : (emitInv x.1 x.2).tam = x.2.length := rfl
  refine ⟨rfl, by rw [hlit, ht, List.length_reverse], by rw [hp]; omega, ?_, ?_⟩
  · intro filePos
    rw [hp]
    unfold seekSet
    have hnn : ¬ ((file.length : Int) - ((x.1 + x.2.length : Nat) : Int) < 0) := by omega
    rw [if_neg hnn]
    omega
  · intro k hk
    rw [ht] at hk
    rw [hlit, hp, List.getElem?_reverse hk]
    have hj : x.1 + (x.2.length - 1 - k) < learn2.length := by omega
    have hfix := h1.2.1 (x.2.length - 1 - k) (by omega)
    have hag := hagree _ hj hfix
    have hcell : x.2[x.2.length - 1 - k]? = learn2[x.1 + (x.2.length - 1 - k)]? := by
      have hc := congrArg (fun l : List Nat => l[x.2.length - 1 - k]?) h2
      simp only at hc
      rw [hc, List.getElem?_take_of_lt (by omega), List.getElem?_drop]
    rw [hcell, List.getElem?_eq_getElem hj]
    have hidx : file.length - (x.1 + x.2.length) + k
        = file.length - 1 - (x.1 + (x.2.length - 1 - k)) := by omega
    have hin : file.length - 1 - (x.1 + (x.2.length - 1 - k)) < file.length := by omega
    rw [hidx, List.getElem?_eq_getElem hin]
    rw [List.getD_eq_getElem _ _ hin, List.getD_eq_getElem _ _ hj] at hag
    rw [hag]

/-- Witness of C7: a learn file with the runs at cells 0 and 2-4 and a file of nine bytes that ends with `EOF`, a tab and a line feed. -/
theorem generatePrint_inverted_address_witness :
    [10, 32, 70, 79, 69, 32].getLast? = some 32 ∧
    [10, 32, 70, 79, 69, 32].length ≤ [1, 2, 3, 4, 69, 79, 70, 9, 10].length ∧
    (∀ j, j < [10, 32, 70, 79, 69, 32].length → [10, 32, 70, 79, 69, 32].getD j 32 ≠ 32 →
      [1, 2, 3, 4, 69, 79, 70, 9, 10].getD ([1, 2, 3, 4, 69, 79, 70, 9, 10].length - 1 - j) 32
        = [10, 32, 70, 79, 69, 32].getD j 32) ∧
    ∃ recs : List PrintRec,
      scanInv [10, 32, 70, 79, 69, 32] = Outcome.done recs ∧
      ∀ r ∈ recs, r.ori = 105 ∧ r.lit.length = r.tam ∧
        r.pos ≤ [1, 2, 3, 4, 69, 79, 70, 9, 10].length ∧
        (∀ filePos, seekSet filePos
            (([1, 2, 3, 4, 69, 79, 70, 9, 10].length : Int) - (r.pos : Int))
          = [1, 2, 3, 4, 69, 79, 70, 9, 10].length - r.pos) ∧
        ∀ k, k < r.tam →
          [1, 2, 3, 4, 69, 79, 70, 9, 10][[1, 2, 3, 4, 69, 79, 70, 9, 10].length - r.pos + k]?
            = r.lit[k]? :=
  ⟨by decide, by decide, by decide,
    generatePrint_inverted_address [10, 32, 70, 79, 69, 32] [1, 2, 3, 4, 69, 79, 70, 9, 10]
      (by decide) (by decide) (by decide)⟩

/-- C8 (seed idempotence) fails on the sample `" AB "`: the learn files are the
sample and its reverse, the scans end, and the bytes written for the STRAIGHT
string are `"AB"`, not the sample; the bytes of the INVERTED string are `"AB"`
too, which is neither the reversed sample nor `"BA"`. -/
theorem seed_compile_literals_differ :
    learn none none [32, 65, 66, 32] 0 0 = some ([32, 65, 66, 32], [32, 66, 65, 32]) ∧
    scanDer [32, 65, 66, 32] = Outcome.done [⟨1, 2, 100, [65, 66]⟩] ∧
    scanInv [32, 66, 65, 32] = Outcome.done [⟨3, 2, 105, [65, 66]⟩] ∧
    ([⟨1, 2, 100, [65, 66]⟩] : List PrintRec).flatMap PrintRec.lit ≠ [32, 65, 66, 32] ∧
    ([⟨3, 2, 105, [65, 66]⟩] : List PrintRec).flatMap PrintRec.lit ≠ [32, 66, 65, 32] ∧
    ([⟨3, 2, 105, [65, 66]⟩] : List PrintRec).flatMap PrintRec.lit ≠ [66, 65] := by
  decide

/-- C8 as amended: for a sample that is empty or begins and ends with a blank,
`learn` on a new extension followed by `generatePrint` ends with a print file
made of the STRAIGHT strings `ds` and the INVERTED strings `inv`; the bytes of
`ds` in a row are the sample without its blanks, and the bytes of `inv`, each
string read back to front, in a row are the reversed sample without its blanks. -/
theorem seed_compile_literals (input : List Nat) (byte byte2 : Nat)
    (h : input = [] ∨ (input.head? = some 32 ∧ input.getLast? = some 32)) :
    ∃ ds inv : List PrintRec,
      learn none none input byte byte2 = some (input, input.reverse) ∧
      scanDer input = Outcome.done ds ∧
      scanInv input.reverse = Outcome.done inv ∧
      generatePrint input input.reverse = Outcome.done ((ds ++ inv).flatMap PrintRec.bytes) ∧
      ds.flatMap PrintRec.lit = input.filter (fun c => c ≠ 32) ∧
      inv.flatMap (fun r => r.lit.reverse) = input.reverse.filter (fun c => c ≠ 32) := by
  have hrev : input.reverse = [] ∨ input.reverse.getLast? = some 32 := by
    rcases h with h | h
    · left; simp [h]
    · right; rw [List.getLast?_reverse]; exact h.1
  have hfwd : input = [] ∨ input.getLast? = some 32 := by
    rcases h with h | h
    · exact Or.inl h
    · exact Or.inr h.2
  obtain ⟨runs, hrun, _, _, _, hcat⟩ := scanFile_spec emitDer input hfwd
  obtain ⟨runs1, hrun1, _, hmem1, _, hcat1⟩ := scanFile_spec emitInv input.reverse hrev
  have hder : scanDer input = Outcome.done (runs.map (fun x => emitDer x.1 x.2)) := hrun
  have hinv : scanInv input.reverse = Outcome.done (runs1.map (fun x => emitInv x.1 x.2)) :=
    hrun1
  refine ⟨_, _, learn_seed none none input byte byte2 (Or.inl rfl), hder, hinv, ?_, ?_, ?_⟩
  · simp only [generatePrint, hder, hinv]
  · rw [List.flatMap_map, ← hcat]
    rfl
  · rw [List.flatMap_map, ← hcat1, List.flatMap_def, List.flatMap_def]
    congr 1
    apply List.map_congr_left
    intro x hx
    rw [emitInv_lit x.1 x.2 (hmem1 x hx).1.1, List.reverse_reverse]

/-- Witness of C8: a sample of six bytes with blanks at both ends and in the middle. -/
theorem seed_compile_literals_witness :
    ([32, 80, 75, 32, 3, 32] = [] ∨
      ([32, 80, 75, 32, 3, 32].head? = some 32 ∧ [32, 80, 75, 32, 3, 32].getLast? = some 32)) ∧
    ∃ ds inv : List PrintRec,
      learn none none [32, 80, 75, 32, 3, 32] 0 0
        = some ([32, 80, 75, 32, 3, 32], [32, 80, 75, 32, 3, 32].reverse) ∧
      scanDer [32, 80, 75, 32, 3, 32] = Outcome.done ds ∧
      scanInv [32, 80, 75, 32, 3, 32].reverse = Outcome.done inv ∧
      generatePrint [32, 80, 75, 32, 3, 32] [32, 80, 75, 32, 3, 32].reverse
        = Outcome.done ((ds ++ inv).flatMap PrintRec.bytes) ∧
      ds.flatMap PrintRec.lit = [32, 80, 75, 32, 3, 32].filter (fun c => c ≠ 32) ∧
      inv.flatMap (fun r => r.lit.reverse)
        = [32, 80, 75, 32, 3, 32].reverse.filter (fun c => c ≠ 32) :=
  ⟨Or.inr (by decide), seed_compile_literals [32, 80, 75, 32, 3, 32] 0 0 (Or.inr (by decide))⟩

/-- C9 (end to end), evaluated on the scenario of the specification: two samples
of 20 bytes `'a'` that differ only at offset 10.  After the two `learn` calls the
STRAIGHT learn file ends with the cell `'a'`, and `generatePrint` is caught in
the inner loop of its scan: no print file is completed, so `identify` has
nothing to report for the extension. -/
theorem end_to_end_print_never_ends :
    (learn none none (List.replicate 20 97) 0 0).bind
        (fun s => learn (some s.1) (some s.2) ((List.replicate 20 97).set 10 98) 0 0)
      = some (List.replicate 10 97 ++ 32 :: List.replicate 9 97,
              List.replicate 9 97 ++ 32 :: List.replicate 10 97) ∧
    scanDer (List.replicate 10 97 ++ 32 :: List.replicate 9 97) = Outcome.hang ∧
    generatePrint (List.replicate 10 97 ++ 32 :: List.replicate 9 97)
        (List.replicate 9 97 ++ 32 :: List.replicate 10 97) = Outcome.hang := by
  decide

/-! ## identify: the claims -/

/-- C1 (full match), evaluated on the print file `<0|1|d>A<2|1|d><`, which
`generatePrint` writes for the learn file `"A < "`, and the file `"A<<"`, which
has `'A'` at offset 0 and `'<'` at offset 2.  The comparison loop runs once more
after the last byte of the first string (`fieldCharCounter <= headData.tam`),
finds the `'<'` of the next header equal to the byte at offset 1 of the file and
misses the string; the guess is 0 detected of 1 and no answer is kept. -/
theorem identify_full_match_lost :
    generatePrint [65, 32, 60, 32] [32, 32, 32, 32]
      = Outcome.done [60, 48, 124, 49, 124, 100, 62, 65, 60, 50, 124, 49, 124, 100, 62, 60] ∧
    identifyGuesses [65, 60, 60]
        [("x", [60, 48, 124, 49, 124, 100, 62, 65, 60, 50, 124, 49, 124, 100, 62, 60])]
        17 0 0 ⟨0, 0, 0⟩
      = some [{ ext := "x", totalPrints := 1, detectedPrints := 0, firstHeaderStrike := false }] ∧
    answers [{ ext := "x", totalPrints := 1, detectedPrints := 0, firstHeaderStrike := false }]
      = some [] := by
  decide

/-- C2 (hit soundness), evaluated twice.  Print file `<0|1|d>A<5|1|d>A` against the
one-byte file `"A"`: the second string lies at offset 5, past the end, and is
counted as detected, because the failed `fread` leaves the `'A'` of the first
string in `byte2`.  Print file `<1|2|d>AA` against the file `"AA"`: one byte is
left at offset 1, and the string of two bytes is counted as detected. -/
theorem identify_counts_region_past_end :
    identifyGuesses [65]
        [("x", [60, 48, 124, 49, 124, 100, 62, 65, 60, 53, 124, 49, 124, 100, 62, 65])]
        17 0 0 ⟨0, 0, 0⟩
      = some [{ ext := "x", totalPrints := 2, detectedPrints := 2, firstHeaderStrike := true }] ∧
    identifyGuesses [65, 65] [("x", [60, 49, 124, 50, 124, 100, 62, 65, 65])] 10 0 0 ⟨0, 0, 0⟩
      = some [{ ext := "x", totalPrints := 1, detectedPrints := 1, firstHeaderStrike := false }] ∧
    List.drop 5 [65] = [] ∧ List.drop 1 [65, 65] = [65] := by
  decide

/-! ## Blank cells stay blank -/

theorem keepsBlanks_refl (l : List Nat) : KeepsBlanks l l :=
  ⟨fun _ h => h, le_refl _⟩

theorem keepsBlanks_trans {a b c : List Nat} (h1 : KeepsBlanks a b) (h2 : KeepsBlanks b c) :
    KeepsBlanks a c :=
  ⟨fun i h => h2.1 i (h1.1 i h), le_trans h1.2 h2.2⟩

theorem writeAt_keepsBlanks (data : List Nat) (p : Nat) : KeepsBlanks data (writeAt data p 32) := by
  unfold writeAt
  by_cases hp : p < data.length
  · rw [if_pos hp]
    constructor
    · intro i hi
      by_cases hpi : p = i
      · subst hpi
        exact List.getElem?_set_self hp
      · rw [List.getElem?_set_ne hpi]
        exact hi
    · rw [List.count_set _ _ _ _ hp]
      simp only [beq_self_eq_true, if_true]
      split <;> omega
  · rw [if_neg hp]
    constructor
    · intro i hi
      have hlt : i < data.length := by
        by_contra hge
        rw [List.getElem?_eq_none (by omega)] at hi
        exact absurd hi (by simp)
      rw [List.append_assoc, List.getElem?_append_left hlt]
      exact hi
    · rw [List.append_assoc, List.count_append]
      omega

theorem blank_keepsBlanks (f : File) : KeepsBlanks f.data f.blank.data := by
  unfold File.blank
  exact writeAt_keepsBlanks _ _

theorem fread_data (f : File) (byte : Nat) : (f.fread byte).2.data = f.data := by
  unfold File.fread
  split <;> rfl

theorem learnStep_keepsBlanks (byte byte2 : Nat) (out : File) :
    KeepsBlanks out.data (learnStep byte byte2 out).2.data := by
  unfold learnStep
  have hd := fread_data out byte2
  by_cases h32 : (out.fread byte2).1 = 32
  · simp only [h32, if_true, hd]
    exact keepsBlanks_refl _
  · by_cases hne : byte = (out.fread byte2).1
    · simp only [h32, if_false, hne, ne_eq, not_true_eq_false, hd]
      exact keepsBlanks_refl _
    · simp only [h32, if_false, hne, ne_eq, not_false_eq_true, if_true]
      have := blank_keepsBlanks (out.fread byte2).2
      rw [hd] at this
      exact this

theorem learnDerLoop_keepsBlanks (input : List Nat) :
    ∀ (byte byte2 : Nat) (out : File),
      KeepsBlanks out.data (learnDerLoop input byte byte2 out).2.2.data := by
  induction input with
  | nil =>
    intro byte byte2 out
    unfold learnDerLoop
    by_cases he : out.eof = true
    · simp only [he, if_true]; exact keepsBlanks_refl _
    · simp only [he, Bool.false_eq_true, if_false]
      exact learnStep_keepsBlanks byte byte2 out
  | cons b rest ih =>
    intro byte byte2 out
    unfold learnDerLoop
    by_cases he : out.eof = true
    · simp only [he, if_true]; exact keepsBlanks_refl _
    · simp only [he, Bool.false_eq_true, if_false]
      exact keepsBlanks_trans (learnStep_keepsBlanks b byte2 out) (ih _ _ _)

theorem learnInvLoop_keepsBlanks (input : List Nat) (endIndex : Nat) :
    ∀ (fuel index byte byte2 : Nat) (out : File) (r : Nat × Nat × File),
      learnInvLoop input endIndex fuel index byte byte2 out = some r →
      KeepsBlanks out.data r.2.2.data := by
  intro fuel
  induction fuel with
  | zero => intro index byte byte2 out r h; simp [learnInvLoop] at h
  | succ fuel ih =>
    intro index byte byte2 out r h
    unfold learnInvLoop at h
    by_cases hc : out.eof = false ∧ index ≤ endIndex
    · simp only [hc, and_self, if_true] at h
      have hd := fread_data out byte2
      split at h
      · have := ih _ _ _ _ _ h
        rw [hd] at this
        exact this
      · split at h
        · have h1 := ih _ _ _ _ _ h
          have h2 := blank_keepsBlanks (out.fread byte2).2
          rw [hd] at h2
          exact keepsBlanks_trans h2 h1
        · have := ih _ _ _ _ _ h
          rw [hd] at this
          exact this
    · simp only [hc, if_false, Option.some.injEq] at h
      subst h
      exact keepsBlanks_refl _

theorem learn_update_keepsBlanks (learn1 learn2 input : List Nat) (byte byte2 : Nat) :
    ∃ r, learn (some learn1) (some learn2) input byte byte2 = some r ∧
      KeepsBlanks learn1 r.1 ∧ KeepsBlanks learn2 r.2 := by
  obtain ⟨t, ht⟩ := learnInv_ends learn2 input
    (learnDerLoop input byte byte2 (File.opened learn1)).1
    (learnDerLoop input byte byte2 (File.opened learn1)).2.1
  refine ⟨((learnDerLoop input byte byte2 (File.opened learn1)).2.2.data, t.2.2.data),
    by simp only [learn, ht], ?_, ?_⟩
  · exact learnDerLoop_keepsBlanks input byte byte2 (File.opened learn1)
  · exact learnInvLoop_keepsBlanks _ _ _ _ _ _ _ _ ht

/-- C11 (monotonic wildcarding): whatever the two learn files and whatever the
samples of a run of `learn` calls (one call is the run of length one), every call
returns, every cell that is blank before the run is blank after it, in the
STRAIGHT and in the INVERTED learn file, and neither file has fewer blank cells
after the run than before. -/
theorem learn_keeps_blanks (learn1 learn2 : List Nat) (calls : List (List Nat × Nat × Nat)) :
    ∃ r, learnMany learn1 learn2 calls = some r ∧
      (∀ i : Nat, learn1[i]? = some 32 → r.1[i]? = some 32) ∧
      (∀ i : Nat, learn2[i]? = some 32 → r.2[i]? = some 32) ∧
      learn1.count 32 ≤ r.1.count 32 ∧ learn2.count 32 ≤ r.2.count 32 := by
  induction calls generalizing learn1 learn2 with
  | nil => exact ⟨(learn1, learn2), rfl, fun _ h => h, fun _ h => h, le_refl _, le_refl _⟩
  | cons call calls ih =>
    obtain ⟨s, hs, hk1, hk2⟩ := learn_update_keepsBlanks learn1 learn2 call.1 call.2.1 call.2.2
    obtain ⟨r, hr, h1, h2, h3, h4⟩ := ih s.1 s.2
    refine ⟨r, by simp only [learnMany, hs, hr], ?_, ?_, ?_, ?_⟩
    · exact fun i h => h1 i (hk1.1 i h)
    · exact fun i h => h2 i (hk2.1 i h)
    · exact le_trans hk1.2 h3
    · exact le_trans hk2.2 h4

/-! ## The mini-header written and read back -/

theorem atoiDigits_digit (d : Nat) (cs : List Nat) (acc : Int) (h1 : 48 ≤ d) (h2 : d ≤ 57) :
    atoiDigits (d :: cs) acc = atoiDigits cs (acc * 10 + ((d : Int) - 48)) := by
  have : isdigit d = true := by simp [isdigit, h1, h2]
  simp [atoiDigits, this]

theorem digitsLoop_spec :
    ∀ (fuel n : Nat) (acc : List Nat), n < fuel →
      ∃ ds : List Nat, digitsLoop fuel n acc = ds ++ acc ∧ ds ≠ [] ∧
        (∀ d ∈ ds, 48 ≤ d ∧ d ≤ 57) ∧
        ∀ (a : Int) (tail : List Nat),
          atoiDigits (ds ++ tail) a = atoiDigits tail (a * 10 ^ ds.length + (n : Int)) := by
  intro fuel
  induction fuel with
  | zero => intro n acc h; omega
  | succ fuel ih =>
    intro n acc h
    unfold digitsLoop
    by_cases hz : n / 10 = 0
    · refine ⟨[48 + n % 10], by simp [hz], by simp, ?_, ?_⟩
      · intro d hd
        simp at hd; omega
      · intro a tail
        have hn : n % 10 = n := by omega
        rw [List.singleton_append, atoiDigits_digit _ _ _ (by omega) (by omega)]
        congr 1
        simp only [List.length_singleton, pow_one]
        omega
    · obtain ⟨ds, hds, _, hdig, hval⟩ := ih (n / 10) ((48 + n % 10) :: acc) (by omega)
      refine ⟨ds ++ [48 + n % 10], by simp [hz, hds], by simp, ?_, ?_⟩
      · intro d hd
        rcases List.mem_append.mp hd with hd | hd
        · exact hdig d hd
        · simp at hd; omega
      · intro a tail
        rw [List.append_assoc, hval, List.singleton_append,
          atoiDigits_digit _ _ _ (by omega) (by omega)]
        congr 1
        simp only [List.length_append, List.length_singleton, pow_succ]
        have hsplit : (n : Int) = 10 * ((n / 10 : Nat) : Int) + ((n % 10 : Nat) : Int) := by
          have := Nat.div_add_mod n 10
          omega
        push_cast
        rw [hsplit]
        push_cast
        ring_nf
        omega

theorem decimal_spec (n : Nat) :
    decimal n ≠ [] ∧ (∀ d ∈ decimal n, 48 ≤ d ∧ d ≤ 57) ∧ atoi (decimal n) = (n : Int) := by
  obtain ⟨ds, hds, hne, hdig, hval⟩ := digitsLoop_spec (n + 1) n [] (by omega)
  have hdec : decimal n = ds := by simp [decimal, hds]
  rw [hdec]
  refine ⟨hne, hdig, ?_⟩
  cases ds with
  | nil => exact absurd rfl hne
  | cons d ds =>
    have hd := hdig d (List.mem_cons_self _ _)
    have hsp : ¬ isspace d = true := by simp [isspace]; omega
    have hv := hval 0 []
    simp only [List.append_nil, zero_mul, zero_add] at hv
    unfold atoi
    rw [List.dropWhile_cons_of_neg hsp]
    split
    · rename_i cs heq
      simp only [List.cons.injEq] at heq
      omega
    · rename_i cs heq
      simp only [List.cons.injEq] at heq
      omega
    · rw [hv]; simp [atoiDigits]

theorem parseUntil_token (ds tail : List Nat) (h : ∀ d ∈ ds, d ≠ 124) :
    parseUntil 124 (ds ++ 124 :: tail) = (ds, { rest := tail, eof := false }) := by
  induction ds with
  | nil => simp [parseUntil]
  | cons d ds ih =>
    have hd : d ≠ 124 := h d (List.mem_cons_self _ _)
    have := ih (fun x hx => h x (List.mem_cons_of_mem _ hx))
    simp [parseUntil, hd, this]

/-- C13 (wire-format round trip): for a string with offset and length below 2^31,
any order byte and any bytes `lit`, followed by any bytes `more`: once the `'<'`
that starts its encoding has been read into `byte` outside a field, the header
parser of `identify` takes the rest of the encoding up to the `'>'`, stores the
same offset, length and order in `headData`, counts the string, and leaves the
print file at the first byte of `lit`. -/
theorem header_round_trip (r : PrintRec) (more : List Nat) (s : IdState)
    (_hpos : r.pos < 2147483648) (_htam : r.tam < 2147483648)
    (hbyte : s.byte = 60) (hfield : s.isOnField = false)
    (hfile : s.printFile.eof = false ∧ 60 :: s.printFile.rest = r.bytes ++ more) :
    parseHeader s =
      (true, { s with
        printFile := { rest := r.lit ++ more, eof := false },
        byte := 62,
        headData := { pos := (r.pos : Int), tam := (r.tam : Int), ori := r.ori },
        isOnField := true,
        totalPrints := (s.totalPrints + 1) % 4294967296 }) := by
  obtain ⟨_, hd1, ha1⟩ := decimal_spec r.pos
  obtain ⟨_, hd2, ha2⟩ := decimal_spec r.tam
  have hrest : s.printFile.rest
      = decimal r.pos ++ 124 :: (decimal r.tam ++ 124 :: (r.ori :: 62 :: (r.lit ++ more))) := by
    have h := hfile.2
    simp only [PrintRec.bytes, List.singleton_append, List.cons_append, List.append_assoc,
      List.cons.injEq, true_and] at h
    simpa using h
  have hp1 := parseUntil_token (decimal r.pos)
    (decimal r.tam ++ 124 :: (r.ori :: 62 :: (r.lit ++ more)))
    (fun d hd => by have := hd1 d hd; omega)
  have hp2 := parseUntil_token (decimal r.tam) (r.ori :: 62 :: (r.lit ++ more))
    (fun d hd => by have := hd2 d hd; omega)
  unfold parseHeader
  simp only [hbyte, hfield, hfile.1, and_self, if_true, hrest, hp1, hp2, Reader.fread, ha1, ha2,
    ne_eq, not_true_eq_false, if_false]

theorem header_round_trip_witness :
    (1203 : Nat) < 2147483648 ∧ (3 : Nat) < 2147483648 ∧ (60 : Nat) = 60 ∧ false = false ∧
    (false = false ∧
      60 :: [49, 50, 48, 51, 124, 51, 124, 105, 62, 60, 124, 62, 60, 48]
        = PrintRec.bytes ⟨1203, 3, 105, [60, 124, 62]⟩ ++ [60, 48]) ∧
    parseHeader
        { printFile := { rest := [49, 50, 48, 51, 124, 51, 124, 105, 62, 60, 124, 62, 60, 48],
                         eof := false },
          filePos := 0, byte := 60, byte2 := 0, headData := ⟨0, 0, 0⟩, isOnField := false,
          fieldCharCounter := 0, auxCounter := 0, totalPrints := 4, detectedPrints := 1,
          firstHeaderStrike := false } =
      (true,
        { printFile := { rest := [60, 124, 62] ++ [60, 48], eof := false },
          filePos := 0, byte := 62, byte2 := 0, headData := ⟨1203, 3, 105⟩, isOnField := true,
          fieldCharCounter := 0, auxCounter := 0, totalPrints := (4 + 1) % 4294967296,
          detectedPrints := 1, firstHeaderStrike := false }) :=
  ⟨by decide, by decide, rfl, rfl, ⟨rfl, by decide⟩,
    header_round_trip ⟨1203, 3, 105, [60, 124, 62]⟩ [60, 48]
      { printFile := { rest := [49, 50, 48, 51, 124, 51, 124, 105, 62, 60, 124, 62, 60, 48],
                       eof := false },
        filePos := 0, byte := 60, byte2 := 0, headData := ⟨0, 0, 0⟩, isOnField := false,
        fieldCharCounter := 0, auxCounter := 0, totalPrints := 4, detectedPrints := 1,
        firstHeaderStrike := false }
      (by decide) (by decide) rfl rfl ⟨rfl, by decide⟩⟩

/-! ## The scorer -/

theorem toFloat_small (n : Nat) (h : n < 16777216) : toFloat n = n := by
  simp [toFloat, h]

theorem bitLengthLoop_le :
    ∀ (fuel n : Nat), n ≤ fuel → 0 < n → 2 ^ (bitLengthLoop fuel n - 1) ≤ n := by
  intro fuel
  induction fuel with
  | zero => intro n h1 h2; omega
  | succ fuel ih =>
    intro n h1 h2
    have hn : n ≠ 0 := by omega
    simp only [bitLengthLoop, hn, if_false, Nat.add_sub_cancel]
    by_cases hh : n / 2 = 0
    · cases fuel with
      | zero => simp [bitLengthLoop]; omega
      | succ f => simp [bitLengthLoop, hh]; omega
    · have h3 := ih (n / 2) (by omega) (by omega)
      cases fuel with
      | zero => omega
      | succ f =>
        simp only [bitLengthLoop, hh, if_false, Nat.add_sub_cancel] at h3 ⊢
        rw [pow_succ]
        omega

theorem toFloat_pos (n : Nat) (h : 0 < n) : 0 < toFloat n := by
  unfold toFloat
  by_cases hs : n < 16777216
  · simp [hs, h]
  · simp only [hs, if_false]
    have hle : 2 ^ (bitLength n - 24) ≤ n := by
      have h1 : 2 ^ (bitLength n - 1) ≤ n := bitLengthLoop_le n n (le_refl _) h
      have h2 : 2 ^ (bitLength n - 24) ≤ 2 ^ (bitLength n - 1) :=
        Nat.pow_le_pow_right (by decide) (by omega)
      exact le_trans h2 h1
    have hm : 0 < n / 2 ^ (bitLength n - 24) := Nat.div_pos hle (Nat.two_pow_pos _)
    have hp : 0 < 2 ^ (bitLength n - 24) := Nat.two_pow_pos _
    split
    · exact Nat.mul_pos (by omega) hp
    · exact Nat.mul_pos hm hp

theorem toFloat_zero : toFloat 0 = 0 := by decide

theorem sortAnswers_perm (l : List ans) : (sortAnswers l).Perm l :=
  List.perm_insertionSort _ l

theorem sortAnswers_sorted (l : List ans) :
    (sortAnswers l).Pairwise (fun a b => b.weight ≤ a.weight) := by
  haveI : IsTotal ans (fun a b => compareAnswers b a = false) :=
    ⟨fun a b => by simp only [compareAnswers, decide_eq_false_iff_not]; omega⟩
  haveI : IsTrans ans (fun a b => compareAnswers b a = false) :=
    ⟨fun a b c h1 h2 => by
      simp only [compareAnswers, decide_eq_false_iff_not] at h1 h2 ⊢; omega⟩
  have h := List.sorted_insertionSort (fun a b : ans => compareAnswers b a = false) l
  refine List.Pairwise.imp ?_ h
  intro a b hab
  simp only [compareAnswers, decide_eq_false_iff_not] at hab
  omega

theorem answers_kept (gs : List guess) :
    ∀ (all kept : List ans), gs.map answerOf = all.map some → answers gs = some kept →
      kept = all.filter (fun a => decide (0 < a.pcent)) := by
  induction gs with
  | nil =>
    intro all kept hall hk
    cases all with
    | nil => simpa [answers] using hk.symm
    | cons a as => simp at hall
  | cons g gs ih =>
    intro all kept hall hk
    cases all with
    | nil => simp at hall
    | cons a as =>
      simp only [List.map_cons, List.cons.injEq] at hall
      obtain ⟨ha, has⟩ := hall
      simp only [answers, ha] at hk
      cases hrest : answers gs with
      | none => simp [hrest] at hk
      | some k =>
        have hk1 := ih as k has hrest
        simp only [hrest, Option.some.injEq] at hk
        rw [← hk, List.filter_cons, hk1]
        by_cases hp : 0 < a.pcent
        · simp [hp]
        · simp [hp]

theorem answers_defined (gs : List guess) :
    ∀ all : List ans, gs.map answerOf = all.map some → ∃ kept, answers gs = some kept := by
  induction gs with
  | nil => intro _ _; exact ⟨[], rfl⟩
  | cons g gs ih =>
    intro all hall
    cases all with
    | nil => simp at hall
    | cons a as =>
      simp only [List.map_cons, List.cons.injEq] at hall
      obtain ⟨k, hk⟩ := ih as hall.2
      exact ⟨if a.pcent > 0 then a :: k else k, by simp only [answers, hall.1, hk]⟩

/-- The ranking when the scorer is defined for every guess: the vector after the
sort is a rearrangement of the answers with `pcent > 0` and its weights never
increase. -/
theorem identify_ranking (gs : List guess) (all : List ans)
    (hall : gs.map answerOf = all.map some) :
    ∃ kept, answers gs = some kept ∧
      (sortAnswers kept).Perm (all.filter (fun a => decide (0 < a.pcent))) ∧
      (sortAnswers kept).Pairwise (fun a b => b.weight ≤ a.weight) := by
  obtain ⟨kept, hk⟩ := answers_defined gs all hall
  refine ⟨kept, hk, ?_, sortAnswers_sorted kept⟩
  rw [← answers_kept gs all kept hall hk]
  exact sortAnswers_perm kept

/-- C17 (scoring arithmetic) fails for a print file of 671089 strings that are all
detected: the quotient is 100, and the `float` product `100 * 671089 = 67108900`
has no `float` of its own (between 2^26 and 2^27 the floats are the multiples of
8), so the weight is 67108896. -/
theorem score_weight_rounded :
    answerOf ⟨"x", 671089, 671089, false⟩
      = some { ext := "x", weight := 67108896, pcent := 100, tp := 671089, gotHeader := false } ∧
    671089 * 100 / 671089 = 100 ∧ (67108896 : Int) ≠ 100 * 671089 * 1 := by
  decide

/-- C17 as amended: for a guess with `totalPrints > 0` (an `unsigned int`) whose
product of the truncated quotient `detectedPrints * 100 / totalPrints` with
`detectedPrints` is below 2^24, the answer has that quotient as `pcent` and the
weight `pcent * detectedPrints`, times 10 with a header strike; and `pcent` is at
most 100 when `detectedPrints ≤ totalPrints`. -/
theorem score_exact (g : guess) (h0 : 0 < g.totalPrints) (ht : g.totalPrints < 4294967296)
    (hsmall : g.detectedPrints * 100 / g.totalPrints * g.detectedPrints < 16777216) :
    ∃ a, answerOf g = some a ∧
      a.pcent = g.detectedPrints * 100 / g.totalPrints ∧
      a.weight = ((a.pcent * g.detectedPrints * (if g.firstHeaderStrike then 10 else 1) : Nat) : Int) ∧
      (g.detectedPrints ≤ g.totalPrints → a.pcent ≤ 100) := by
  obtain ⟨ext, t, m, hs⟩ := g
  simp only at h0 ht hsmall ⊢
  have hq : m * 100 % 4294967296 / t = m * 100 / t := by
    by_cases hw : m * 100 < 4294967296
    · rw [Nat.mod_eq_of_lt hw]
    · exfalso
      have hm : 16777216 ≤ m := by omega
      have hQ : m * 100 / t = 0 := by
        by_contra hne
        have h1 : 1 ≤ m * 100 / t := Nat.one_le_iff_ne_zero.mpr hne
        have h2 : m ≤ m * 100 / t * m := Nat.le_mul_of_pos_left m h1
        omega
      have hlt : m * 100 < t := (Nat.div_eq_zero_iff h0).mp hQ
      omega
  have hP : toFloat (m * 100 / t) * toFloat m = m * 100 / t * m := by
    by_cases hQ : m * 100 / t = 0
    · simp [hQ, toFloat_zero]
    · have h1 : 1 ≤ m * 100 / t := Nat.one_le_iff_ne_zero.mpr hQ
      have h2 : m ≤ m * 100 / t * m := Nat.le_mul_of_pos_left m h1
      by_cases hm : m = 0
      · subst hm; simp at hQ
      · have h3 : m * 100 / t ≤ m * 100 / t * m :=
          Nat.le_mul_of_pos_right _ (Nat.pos_of_ne_zero hm)
        rw [toFloat_small _ (by omega), toFloat_small _ (by omega)]
  have hpc : toFloat (m * 100 / t) = m * 100 / t := by
    by_cases hm : m = 0
    · subst hm; simp [toFloat_zero]
    · have h3 : m * 100 / t ≤ m * 100 / t * m :=
        Nat.le_mul_of_pos_right _ (Nat.pos_of_ne_zero hm)
      exact toFloat_small _ (by omega)
  have hw : toFloat (toFloat (m * 100 / t) * toFloat m) = m * 100 / t * m := by
    rw [hP]; exact toFloat_small _ hsmall
  have hne : t ≠ 0 := by omega
  cases hs with
  | false =>
    refine ⟨_, by
      simp only [answerOf, hne, if_false, hq, hw, Bool.false_eq_true]
      rw [if_neg (by omega)], ?_, ?_, ?_⟩
    · exact hpc
    · simp [hpc]
    · intro hle
      rw [hpc]
      exact Nat.div_le_of_le_mul (by nlinarith)
  | true =>
    refine ⟨_, by
      simp only [answerOf, hne, if_false, hq, hw, if_true]
      rw [if_neg (by omega)], ?_, ?_, ?_⟩
    · exact hpc
    · simp [hpc]
    · intro hle
      rw [hpc]
      exact Nat.div_le_of_le_mul (by nlinarith)

/-- C19 (answer retention) fails for a print file of 101 strings of which one is
detected: the quotient `1 * 100 / 101` is 0, the answer has `pcent = 0` and is
not pushed, so the ranked output is empty. -/
theorem answer_dropped_below_one_percent :
    (0 < 101 ∧ 0 < 1) ∧
    answerOf ⟨"x", 101, 1, false⟩
      = some { ext := "x", weight := 0, pcent := 0, tp := 101, gotHeader := false } ∧
    (answers [⟨"x", 101, 1, false⟩]).map sortAnswers = some [] := by
  decide

/-- C19 as amended: for a guess whose answer `a` is defined (`totalPrints > 0`, the
weight within `int`) and whose product `detectedPrints * 100` is below 2^32, the
ranked output for the guess is `[a]` when `totalPrints ≤ detectedPrints * 100`,
that is when the truncated quotient is at least 1, and it is empty otherwise. -/
theorem answer_kept_iff (g : guess) (a : ans) (h : answerOf g = some a)
    (hw : g.detectedPrints * 100 < 4294967296) :
    0 < g.totalPrints ∧
    (answers [g]).map sortAnswers
      = some (if g.totalPrints ≤ g.detectedPrints * 100 then [a] else []) := by
  have h0 : g.totalPrints ≠ 0 := by
    intro e
    simp [answerOf, e] at h
  refine ⟨Nat.pos_of_ne_zero h0, ?_⟩
  have hmod : g.detectedPrints * 100 % 4294967296 = g.detectedPrints * 100 :=
    Nat.mod_eq_of_lt hw
  have hp : a.pcent = toFloat (g.detectedPrints * 100 / g.totalPrints) := by
    rw [← hmod]
    cases hs : g.firstHeaderStrike <;> simp [answerOf, h0, hs] at h <;> rw [← h.2]
  by_cases hk : g.totalPrints ≤ g.detectedPrints * 100
  · have hq : 0 < g.detectedPrints * 100 / g.totalPrints :=
      Nat.div_pos hk (Nat.pos_of_ne_zero h0)
    have hpos : a.pcent > 0 := by rw [hp]; exact toFloat_pos _ hq
    simp [answers, h, hpos, hk, sortAnswers]
  · have hq : g.detectedPrints * 100 / g.totalPrints = 0 :=
      (Nat.div_eq_zero_iff (Nat.pos_of_ne_zero h0)).mpr (by omega)
    have hz : ¬ a.pcent > 0 := by rw [hp, hq, toFloat_zero]; omega
    simp [answers, h, hz, hk, sortAnswers]

/-- Witness of C19: 3 of 7 strings detected, with the header strike. -/
theorem answer_kept_iff_witness :
    answerOf ⟨"x", 7, 3, true⟩
      = some { ext := "x", weight := 1260, pcent := 42, tp := 7, gotHeader := true } ∧
    (⟨"x", 7, 3, true⟩ : guess).detectedPrints * 100 < 4294967296 ∧
    0 < (⟨"x", 7, 3, true⟩ : guess).totalPrints ∧
    (answers [⟨"x", 7, 3, true⟩]).map sortAnswers
      = some (if (⟨"x", 7, 3, true⟩ : guess).totalPrints
                  ≤ (⟨"x", 7, 3, true⟩ : guess).detectedPrints * 100
              then [{ ext := "x", weight := 1260, pcent := 42, tp := 7, gotHeader := true }]
              else []) :=
  ⟨by decide, by decide, answer_kept_iff ⟨"x", 7, 3, true⟩
    { ext := "x", weight := 1260, pcent := 42, tp := 7, gotHeader := true } (by decide)
    (by decide)⟩

/-- Witness of C17: 3 of 7 strings detected, with the header strike. -/
theorem score_exact_witness :
    0 < (⟨"x", 7, 3, true⟩ : guess).totalPrints ∧
    (⟨"x", 7, 3, true⟩ : guess).totalPrints < 4294967296 ∧
    (⟨"x", 7, 3, true⟩ : guess).detectedPrints * 100 / (⟨"x", 7, 3, true⟩ : guess).totalPrints
      * (⟨"x", 7, 3, true⟩ : guess).detectedPrints < 16777216 ∧
    ∃ a, answerOf ⟨"x", 7, 3, true⟩ = some a ∧
      a.pcent = (⟨"x", 7, 3, true⟩ : guess).detectedPrints * 100
        / (⟨"x", 7, 3, true⟩ : guess).totalPrints ∧
      a.weight = ((a.pcent * (⟨"x", 7, 3, true⟩ : guess).detectedPrints
        * (if (⟨"x", 7, 3, true⟩ : guess).firstHeaderStrike then 10 else 1) : Nat) : Int) ∧
      ((⟨"x", 7, 3, true⟩ : guess).detectedPrints ≤ (⟨"x", 7, 3, true⟩ : guess).totalPrints →
        a.pcent ≤ 100) :=
  ⟨by decide, by decide, by decide,
    score_exact ⟨"x", 7, 3, true⟩ (by decide) (by decide) (by decide)⟩

/-! ## Learn files that end with a cell that is not blank -/

theorem readChain_some (rest : List Nat) :
    ∀ (byte : Nat) (r : List Nat × List Nat), readChain byte rest = some r →
      byte :: rest = r.1 ++ 32 :: r.2 := by
  induction rest with
  | nil =>
    intro byte r h
    by_cases hb : byte = 32
    · subst hb
      simp only [readChain, ne_eq, not_true_eq_false, if_false, Option.some.injEq] at h
      rw [← h]; rfl
    · simp [readChain, hb] at h
  | cons b rest ih =>
    intro byte r h
    by_cases hb : byte = 32
    · subst hb
      simp only [readChain, ne_eq, not_true_eq_false, if_false, Option.some.injEq] at h
      rw [← h]; rfl
    · simp only [readChain, ne_eq, hb, not_false_eq_true, if_true] at h
      cases hr : readChain b rest with
      | none => simp [hr] at h
      | some r1 =>
        simp only [hr, Option.some.injEq] at h
        have := ih b r1 hr
        rw [← h]
        simp [this]

theorem scanLoop_hangs (emit : Nat → List Nat → PrintRec) :
    ∀ (fuel byte : Nat) (rest : List Nat) (tell c : Nat),
      rest.length < fuel → (byte :: rest).getLast? = some c → c ≠ 32 →
      scanLoop emit fuel byte rest tell = Outcome.hang := by
  intro fuel
  induction fuel with
  | zero => intro byte rest tell c h; omega
  | succ fuel ih =>
    intro byte rest tell c hfuel hlast hc
    rw [scanLoop_succ]
    by_cases hb : byte = 32
    · subst hb
      simp only [ne_eq, not_true_eq_false, if_false]
      cases rest with
      | nil => simp at hlast; exact absurd hlast.symm hc
      | cons b r =>
        have hlast1 : (b :: r).getLast? = some c := by
          rw [List.getLast?_cons_cons] at hlast; exact hlast
        exact ih b r _ c (by simpa using hfuel) hlast1 hc
    · simp only [ne_eq, hb, not_false_eq_true, if_true]
      cases hr : readChain byte rest with
      | none => rfl
      | some r =>
        have heq := readChain_some rest byte r hr
        have hlen : rest.length + 1 = r.1.length + 1 + r.2.length := by
          have := congrArg List.length heq
          simp at this; omega
        have hlast1 : (32 :: r.2).getLast? = some c := by
          rw [heq, List.getLast?_append] at hlast
          cases hg : (32 :: r.2).getLast? with
          | none => simp at hg
          | some v => rw [hg] at hlast; simpa using hlast
        have hpos : 0 < r.1.length := by
          cases h1 : r.1 with
          | nil => rw [h1] at heq; simp at heq; exact absurd heq.1 hb
          | cons x xs => simp
        simp only [ih 32 r.2 _ c (by omega) hlast1 hc, Outcome.after]

theorem scanFile_hangs (emit : Nat → List Nat → PrintRec) (bytes : List Nat) (c : Nat)
    (hlast : bytes.getLast? = some c) (hc : c ≠ 32) :
    scanFile emit bytes = Outcome.hang := by
  cases bytes with
  | nil => simp at hlast
  | cons b rest => exact scanLoop_hangs emit (rest.length + 1) b rest 1 c (by omega) hlast hc

/-! ## The claims on shorter samples, on the end of generatePrint and on identify -/

/-- C12 (shorter sample), evaluated on the learn file `"ABC"` and the sample `"A"`:
the STRAIGHT update blanks cell 1, an offset that the sample does not reach.  The
read of the exhausted sample fails, `byte` keeps `'A'`, and the body runs once
more against the cell `'B'`.  The INVERTED loop, bounded by `index <= endIndex`,
leaves the same learn file as it is. -/
theorem learn_forward_blanks_past_sample (byte byte2 : Nat) :
    learnDer [65, 66, 67] [65] byte byte2 = [65, 32, 67] ∧
      learnInv [65, 66, 67] [65] byte byte2 = some [65, 66, 67] := by
  exact ⟨rfl, rfl⟩

/-- C14 (record counting), evaluated on the print file `<0|2|d>AB<3|1|d>C<5|2|d>DE`
of three strings and the file `"AB<"`: the extra pass of the comparison loop
finds the `'<'` of the second header equal to the byte at offset 2 of the file,
the reader loses the headers and `totalPrints` ends at 1. -/
theorem identify_loses_count :
    ([⟨0, 2, 100, [65, 66]⟩, ⟨3, 1, 100, [67]⟩, ⟨5, 2, 100, [68, 69]⟩] : List PrintRec).flatMap
        PrintRec.bytes
      = [60, 48, 124, 50, 124, 100, 62, 65, 66, 60, 51, 124, 49, 124, 100, 62, 67,
         60, 53, 124, 50, 124, 100, 62, 68, 69] ∧
    identifyGuesses [65, 66, 60]
        [("x", [60, 48, 124, 50, 124, 100, 62, 65, 66, 60, 51, 124, 49, 124, 100, 62, 67,
                60, 53, 124, 50, 124, 100, 62, 68, 69])]
        27 0 0 ⟨0, 0, 0⟩
      = some [{ ext := "x", totalPrints := 1, detectedPrints := 0, firstHeaderStrike := false }] := by
  decide

/-- C15 (zero-record guard), evaluated on an empty print file, which
`generatePrint` writes for two learn files without a fixed cell: the guess has
`totalPrints = 0`, the scorer divides by it, and `identify` has no defined
result. -/
theorem identify_divides_by_zero :
    generatePrint [32] [32] = Outcome.done [] ∧
    identifyGuesses [65, 66] [("x", [])] 1 0 0 ⟨0, 0, 0⟩
      = some [{ ext := "x", totalPrints := 0, detectedPrints := 0, firstHeaderStrike := false }] ∧
    answerOf { ext := "x", totalPrints := 0, detectedPrints := 0, firstHeaderStrike := false }
      = none ∧
    identify [65, 66] [("x", [])] 1 0 0 ⟨0, 0, 0⟩ = none := by
  decide

/-- C16 (ranking order), evaluated on the file `"AB"` with the print files
`<0|2|d>AB` (one string, detected, weight 1000) and an empty one: the guess of
the empty file makes the scorer divide by zero before the sort, and nothing is
reported, the answer with `pcent = 100` included. -/
theorem identify_ranking_lost :
    identifyGuesses [65, 66] [("abc", [60, 48, 124, 50, 124, 100, 62, 65, 66]), ("xyz", [])]
        10 0 0 ⟨0, 0, 0⟩
      = some [{ ext := "abc", totalPrints := 1, detectedPrints := 1, firstHeaderStrike := true },
              { ext := "xyz", totalPrints := 0, detectedPrints := 0, firstHeaderStrike := false }] ∧
    answerOf { ext := "abc", totalPrints := 1, detectedPrints := 1, firstHeaderStrike := true }
      = some { ext := "abc", weight := 1000, pcent := 100, tp := 1, gotHeader := true } ∧
    identify [65, 66] [("abc", [60, 48, 124, 50, 124, 100, 62, 65, 66]), ("xyz", [])]
        10 0 0 ⟨0, 0, 0⟩ = none := by
  decide

/-- C18 (compile terminates): for every sample whose last byte is not a blank,
`learn` on a new extension leaves the sample as STRAIGHT learn file, and
`generatePrint` on the two new learn files is caught in the inner loop of its
first scan and never completes the print file. -/
theorem generatePrint_hangs_after_seed (input : List Nat) (c byte byte2 : Nat)
    (hlast : input.getLast? = some c) (hc : c ≠ 32) :
    learn none none input byte byte2 = some (input, input.reverse) ∧
      scanDer input = Outcome.hang ∧
      generatePrint input input.reverse = Outcome.hang := by
  have hs : scanDer input = Outcome.hang := scanFile_hangs emitDer input c hlast hc
  exact ⟨learn_seed none none input byte byte2 (Or.inl rfl), hs, by simp only [generatePrint, hs]⟩

/-- Witness of C18: the sample `"%PDF"`. -/
theorem generatePrint_hangs_after_seed_witness :
    [37, 80, 68, 70].getLast? = some 70 ∧ (70 : Nat) ≠ 32 ∧
    learn none none [37, 80, 68, 70] 0 0 = some ([37, 80, 68, 70], [37, 80, 68, 70].reverse) ∧
      scanDer [37, 80, 68, 70] = Outcome.hang ∧
      generatePrint [37, 80, 68, 70] [37, 80, 68, 70].reverse = Outcome.hang :=
  ⟨by decide, by decide,
    generatePrint_hangs_after_seed [37, 80, 68, 70] 70 0 0 (by decide) (by decide)⟩

/-- C20 (per-file independence), evaluated on the file `"AB"` and the print file
`y` = `<9|1|d>A`, whose string lies past the end of the file.  After the print
file `<0|1|d>A` the guess of `y` is 0 detected of 1; after the print file
`<0|1|d>X` it is 1 detected of 1; as the only print file, with 0 in the
uninitialised `byte2`, it is 0 detected of 1.  The read at offset 9 fails and the
comparison uses the byte that the print file before `y` left in `byte2`. -/
theorem identify_guess_depends_on_previous :
    identifyGuesses [65, 66]
        [("x", [60, 48, 124, 49, 124, 100, 62, 65]), ("y", [60, 57, 124, 49, 124, 100, 62, 65])]
        9 0 0 ⟨0, 0, 0⟩
      = some [{ ext := "x", totalPrints := 1, detectedPrints := 1, firstHeaderStrike := true },
              { ext := "y", totalPrints := 1, detectedPrints := 0, firstHeaderStrike := false }] ∧
    identifyGuesses [65, 66]
        [("x", [60, 48, 124, 49, 124, 100, 62, 88]), ("y", [60, 57, 124, 49, 124, 100, 62, 65])]
        9 0 0 ⟨0, 0, 0⟩
      = some [{ ext := "x", totalPrints := 1, detectedPrints := 0, firstHeaderStrike := false },
              { ext := "y", totalPrints := 1, detectedPrints := 1, firstHeaderStrike := false }] ∧
    identifyGuesses [65, 66] [("y", [60, 57, 124, 49, 124, 100, 62, 65])] 9 0 0 ⟨0, 0, 0⟩
      = some [{ ext := "y", totalPrints := 1, detectedPrints := 0, firstHeaderStrike := false }] := by
  decide

/-! ## The number of cells of a learn file -/

theorem fread_room (f : File) (byte : Nat) (h : f.pos ≤ f.data.length) :
    (f.fread byte).2.data = f.data ∧ (f.fread byte).2.pos ≤ f.data.length := by
  unfold File.fread
  cases hget : f.data[f.pos]? with
  | none => exact ⟨rfl, h⟩
  | some b =>
    have hlt : f.pos < f.data.length := by
      by_contra hge
      rw [List.getElem?_eq_none (by omega)] at hget
      exact absurd hget (by simp)
    exact ⟨rfl, hlt⟩

theorem blank_length (f : File) (h : f.pos ≤ f.data.length) (hne : 0 < f.data.length) :
    f.blank.data.length = f.data.length ∧ f.blank.pos ≤ f.blank.data.length := by
  unfold File.blank writeAt
  by_cases hp : f.pos = 0
  · simp only [hp, ne_eq, not_true_eq_false, if_false, hne, if_true, List.length_set]
    exact ⟨trivial, hne⟩
  · have hlt : f.pos - 1 < f.data.length := by omega
    simp only [ne_eq, hp, not_false_eq_true, if_true, hlt, List.length_set]
    exact ⟨trivial, by omega⟩

theorem learnStep_length (byte byte2 : Nat) (out : File) (h : out.pos ≤ out.data.length)
    (hne : 0 < out.data.length) :
    (learnStep byte byte2 out).2.data.length = out.data.length ∧
      (learnStep byte byte2 out).2.pos ≤ (learnStep byte byte2 out).2.data.length := by
  obtain ⟨hd, hp⟩ := fread_room out byte2 h
  have hb := blank_length (out.fread byte2).2 (by rw [hd]; exact hp) (by rw [hd]; exact hne)
  unfold learnStep
  by_cases h32 : (out.fread byte2).1 = 32
  · simp only [h32, if_true, hd]
    exact ⟨trivial, hp⟩
  · by_cases hsame : byte = (out.fread byte2).1
    · simp only [h32, if_false, hsame, ne_eq, not_true_eq_false, hd]
      exact ⟨trivial, hp⟩
    · simp only [h32, if_false, hsame, ne_eq, not_false_eq_true, if_true]
      exact ⟨by rw [hb.1, hd], hb.2⟩

theorem learnDerLoop_length (input : List Nat) :
    ∀ (byte byte2 : Nat) (out : File), out.pos ≤ out.data.length → 0 < out.data.length →
      (learnDerLoop input byte byte2 out).2.2.data.length = out.data.length := by
  induction input with
  | nil =>
    intro byte byte2 out h hne
    unfold learnDerLoop
    by_cases he : out.eof = true
    · simp only [he, if_true]
    · simp only [he, Bool.false_eq_true, if_false]
      exact (learnStep_length byte byte2 out h hne).1
  | cons b rest ih =>
    intro byte byte2 out h hne
    unfold learnDerLoop
    by_cases he : out.eof = true
    · simp only [he, if_true]
    · simp only [he, Bool.false_eq_true, if_false]
      obtain ⟨h1, h2⟩ := learnStep_length b byte2 out h hne
      rw [ih _ _ _ h2 (by omega), h1]

theorem learnInvLoop_length (input : List Nat) (endIndex : Nat) :
    ∀ (fuel index byte byte2 : Nat) (out : File) (r : Nat × Nat × File),
      out.pos ≤ out.data.length → 0 < out.data.length →
      learnInvLoop input endIndex fuel index byte byte2 out = some r →
      r.2.2.data.length = out.data.length := by
  intro fuel
  induction fuel with
  | zero => intro index byte byte2 out r _ _ h; simp [learnInvLoop] at h
  | succ fuel ih =>
    intro index byte byte2 out r hpos hne h
    unfold learnInvLoop at h
    by_cases hc : out.eof = false ∧ index ≤ endIndex
    · simp only [hc, and_self, if_true] at h
      obtain ⟨hd, hp⟩ := fread_room out byte2 hpos
      have hb := blank_length (out.fread byte2).2 (by rw [hd]; exact hp) (by rw [hd]; exact hne)
      split at h
      · rw [ih _ _ _ _ _ (by rw [hd]; exact hp) (by rw [hd]; exact hne) h, hd]
      · split at h
        · rw [ih _ _ _ _ _ hb.2 (by rw [hb.1, hd]; exact hne) h, hb.1, hd]
        · rw [ih _ _ _ _ _ (by rw [hd]; exact hp) (by rw [hd]; exact hne) h, hd]
    · simp only [hc, if_false, Option.some.injEq] at h
      subst h
      rfl

/-- C21 (buffer length is preserved by learning): for every pair of existing
learn files and every sample of any length, `learn` returns, and each of the two
learn files that is not empty has after the call exactly as many cells as
before. -/
theorem learn_keeps_length (learn1 learn2 input : List Nat) (byte byte2 : Nat) :
    ∃ r, learn (some learn1) (some learn2) input byte byte2 = some r ∧
      (learn1 ≠ [] → r.1.length = learn1.length) ∧
      (learn2 ≠ [] → r.2.length = learn2.length) := by
  obtain ⟨t, ht⟩ := learnInv_ends learn2 input
    (learnDerLoop input byte byte2 (File.opened learn1)).1
    (learnDerLoop input byte byte2 (File.opened learn1)).2.1
  refine ⟨((learnDerLoop input byte byte2 (File.opened learn1)).2.2.data, t.2.2.data),
    by simp only [learn, ht], ?_, ?_⟩
  · intro hne
    exact learnDerLoop_length input byte byte2 (File.opened learn1) (Nat.zero_le _)
      (List.length_pos.mpr hne)
  · intro hne
    exact learnInvLoop_length _ _ _ _ _ _ (File.opened learn2) t (Nat.zero_le _)
      (List.length_pos.mpr hne) ht

/-- Witness of C21: learn files of three cells and a sample of five bytes. -/
theorem learn_keeps_length_witness :
    ∃ r, learn (some [37, 80, 68]) (some [10, 70, 79]) [37, 81, 68, 70, 10] 0 0 = some r ∧
      (([37, 80, 68] : List Nat) ≠ [] → r.1.length = [37, 80, 68].length) ∧
      (([10, 70, 79] : List Nat) ≠ [] → r.2.length = [10, 70, 79].length) :=
  learn_keeps_length [37, 80, 68] [10, 70, 79] [37, 81, 68, 70, 10] 0 0

end PrintTracker
